import Mathlib

/-!
Verification of the `peri` compiler (a typestate-checking compiler for an
embedded-systems language) against its natural-language specification.

The Lean definitions below are a shallow embedding of the Rust sources:
  * `src/frontend/ast.rs`   — surface AST (`ast` namespace);
  * `src/ir/mod.rs`, `src/ir/cfg.rs` — machine IR, basic blocks, CFG,
    flattening (`ir` namespace);
  * `src/analysis/semantic.rs` — name/arity/duplicate checking;
  * `src/analysis/typestate.rs` — the typestate verifier;
  * `src/backend/liveness.rs`, `src/backend/regalloc.rs` — liveness
    dataflow and linear-scan register allocation.

Rust `HashMap`s are embedded as association lists with insert-overwrite
semantics (`alookup` / `ainsert`), `HashSet`s of small integers as
`Finset Nat`.  Strings stay `String`, `usize` becomes `Nat`, `i32`
becomes `Int` (no arithmetic on them is performed by the verified code).
Rust `Vec` indexing (which panics when out of bounds) is totalized with
a default element; every use in the repository indexes in bounds.
-/

namespace Peri

/-- Generic association-list lookup, embedding `HashMap::get`. -/
def alookup {κ α : Type} [DecidableEq κ] : List (κ × α) → κ → Option α
  | [], _ => Option.none
  | (k', v) :: rest, k => if k' = k then some v else alookup rest k

/-- Generic association-list insert with overwrite, embedding `HashMap::insert`. -/
def ainsert {κ α : Type} [DecidableEq κ] : List (κ × α) → κ → α → List (κ × α)
  | [], k, v => [(k, v)]
  | (k', v') :: rest, k, v =>
      if k' = k then (k, v) :: rest else (k', v') :: ainsert rest k v

theorem alookup_ainsert {κ α : Type} [DecidableEq κ] (m : List (κ × α)) (k k' : κ) (v : α) :
    alookup (ainsert m k v) k' = if k = k' then some v else alookup m k' := by
  induction m with
  | nil => by_cases h : k = k' <;> simp [ainsert, alookup, h]
  | cons p rest ih =>
    obtain ⟨k0, v0⟩ := p
    by_cases h0 : k0 = k
    · subst h0
      by_cases h : k0 = k' <;> simp [ainsert, alookup, h]
    · by_cases h1 : k0 = k'
      · subst h1
        have hkk : ¬ k = k0 := fun hh => h0 hh.symm
        simp [ainsert, alookup, h0, hkk]
      · simp [ainsert, alookup, h0, h1, ih]

theorem alookup_ainsert_self {κ α : Type} [DecidableEq κ] (m : List (κ × α)) (k : κ) (v : α) :
    alookup (ainsert m k v) k = some v := by
  simp [alookup_ainsert]

theorem alookup_ainsert_ne {κ α : Type} [DecidableEq κ] (m : List (κ × α)) (k k' : κ) (v : α)
    (h : k ≠ k') : alookup (ainsert m k v) k' = alookup m k' := by
  simp [alookup_ainsert, h]

namespace ast

/-- `ast::BinaryOp` — shared by the surface AST and the IR expressions. -/
inductive BinaryOp
  | add | sub | mul | div | mod | bitAnd | bitOr | bitXor | shl | shr
  | eq | ne | lt | le | gt | ge | and | or
deriving DecidableEq, Repr

/-- `ast::UnaryOp`. -/
inductive UnaryOp
  | neg | not | bitNot
deriving DecidableEq, Repr

/-- `ast::Type`. -/
inductive Ty
  | i32 | u8 | u16 | u32
deriving DecidableEq, Repr

/-- `ast::TypeState` — a function's typestate signature `P<Sin> -> P<Sout>`. -/
structure TypeState where
  peripheral : String
  input_state : String
  output_state : String
deriving DecidableEq, Repr

/-- `ast::Register`. -/
structure Register where
  name : String
  offset : Nat
deriving DecidableEq, Repr

/-- `ast::RegisterType`. -/
inductive RegisterType
  | u8 | u16 | u32
deriving DecidableEq, Repr

/-- `ast::RegisterBlock`. -/
structure RegisterBlock where
  reg_type : RegisterType
  registers : List Register
deriving DecidableEq, Repr

/-- `ast::Peripheral`. -/
structure Peripheral where
  name : String
  base_address : Option Nat
  states : List String
  initial : String
  register_blocks : List RegisterBlock
deriving DecidableEq, Repr

/-- `ast::Expr`. -/
inductive Expr
  | intLit (value : Int)
  | var (name : String)
  | binary (op : BinaryOp) (left right : Expr)
  | unary (op : UnaryOp) (operand : Expr)
  | fnCall (name : String) (args : List Expr)
  | peripheralRead (peripheral register : String)
deriving Repr

/-- `ast::Statement`. -/
inductive Statement
  | letS (var_name : String) (value : Expr)
  | assign (var_name : String) (value : Expr)
  | exprS (expr : Expr)
  | ifS (cond : Expr) (then_block else_block : List Statement)
  | whileS (cond : Expr) (body : List Statement)
  | returnS (expr : Expr)
  | peripheralWrite (peripheral register : String) (value : Expr)
deriving Repr

/-- `ast::Function`. -/
structure Function where
  name : String
  args : List (String × Ty)
  signature : Option TypeState
  body : List Statement
deriving Repr

/-- `ast::Program`. -/
structure Program where
  peripherals : List Peripheral
  functions : List Function
deriving Repr

end ast

namespace ir

/-- `ir::VirtualRegister` — a dense integer identity. -/
abbrev VirtualRegister := Nat

/-- `ir::Op` (from `src/ir/mod.rs`). -/
inductive Op
  | loadImm (value : Int)
  | loadAddr (addr : Nat)
  | loadWord
  | storeWord
  | mov
  | movArg (i : Nat)
  | call (name : String)
  | ret (reg : Option VirtualRegister)
  | label (name : String)
  | jump (target : String)
  | branchIfFalse (target : String)
  | add | sub | mul | div | rem | and | or | xor | sll | srl
  | neg | not | eq | ne | lt | le | gt | ge
deriving DecidableEq, Repr

/-- `ir::Instruction`. -/
structure Instruction where
  operation : Op
  destination : Option VirtualRegister
  args : List VirtualRegister
deriving DecidableEq, Repr

/-- `ir::cfg::BlockId`. -/
abbrev BlockId := Nat

/-- `ir::cfg::Terminator`. -/
inductive Terminator
  | jump (target : BlockId)
  | branch (cond : VirtualRegister) (then_block else_block : BlockId)
  | ret (reg : Option VirtualRegister)
  | fallthrough (target : BlockId)
  | none
deriving DecidableEq, Repr

/-- `ir::cfg::Expr` — the IR copy of the surface expression tree.
Modelled from the spec: the enum declaration is absent from the source
snapshot (`src/ir/cfg.rs` lacks it), but its variants are fixed by
`ast_expr_to_cfg` in `src/ir/lower.rs` and by §3 of the specification:
it mirrors `ast::Expr` field for field. -/
inductive Expr
  | intLit (value : Int)
  | var (name : String)
  | binary (op : ast.BinaryOp) (left right : Expr)
  | unary (op : ast.UnaryOp) (operand : Expr)
  | fnCall (name : String) (args : List Expr)
  | peripheralRead (peripheral register : String)
deriving Repr

/-- `ir::cfg::Statement` — the semantic statement stream consumed by the
typestate verifier.  Modelled from the spec: the enum declaration is
absent from the source snapshot, but its variants are fixed by the
`emit_stmt` calls in `src/ir/lower.rs`, the match arms of
`verify_statement` in `src/analysis/typestate.rs`, and §3 of the
specification. -/
inductive Statement
  | letS (var_name : String) (value : Expr)
  | assign (var_name : String) (value : Expr)
  | exprS (expr : Expr)
  | peripheralDriverCall (function peripheral from_state to_state : String)
  | peripheralWrite (peripheral register : String) (value : Expr)
deriving Repr

/-- `ir::cfg::BasicBlock`.  The `statements` field (the semantic stream)
is pushed by `emit_stmt` in `src/ir/lower.rs` and read by the verifier;
the snapshot's `cfg.rs` shows the remaining fields. -/
structure BasicBlock where
  id : BlockId
  statements : List Statement
  instructions : List Instruction
  terminator : Terminator
deriving Repr

/-- Default used to totalize out-of-bounds `Vec` indexing (Rust panics;
well-formed CFGs never index out of bounds). -/
def defaultBlock : BasicBlock := ⟨0, [], [], Terminator.none⟩

/-- `ir::cfg::CFG`. -/
structure CFG where
  blocks : List BasicBlock
  entry : BlockId
deriving Repr

/-- `CFG::block` — `&self.blocks[id]`, totalized with `defaultBlock`. -/
def CFG.block (cfg : CFG) (id : BlockId) : BasicBlock :=
  cfg.blocks.getD id defaultBlock

/-- The `.LBB{id}` label string built by `CFG::flatten`. -/
def labelName (id : BlockId) : String :=
  ".LBB" ++ toString id

/-- The terminator-derived instructions emitted by `CFG::flatten` for one
block (the `match &block.terminator` arm of the loop). -/
def termInstrs (b : BasicBlock) : List Instruction :=
  match b.terminator with
  | .jump target => [⟨.jump (labelName target), Option.none, []⟩]
  | .branch cond then_block else_block =>
      ⟨.branchIfFalse (labelName else_block), Option.none, [cond]⟩ ::
        (if then_block ≠ b.id + 1 then [⟨.jump (labelName then_block), Option.none, []⟩] else [])
  | .ret val => [⟨.ret val, Option.none, val.elim [] (fun v => [v])⟩]
  | .fallthrough target =>
      if target ≠ b.id + 1 then [⟨.jump (labelName target), Option.none, []⟩] else []
  | .none => []

/-- One iteration of the `CFG::flatten` loop: optional synthetic label,
the block's machine instructions, then the terminator-derived tail. -/
def flattenBlock (entry : BlockId) (b : BasicBlock) : List Instruction :=
  (if b.id ≠ entry then [⟨.label (labelName b.id), Option.none, []⟩] else [])
    ++ b.instructions ++ termInstrs b

/-- `CFG::flatten` — linearize the CFG back to an instruction stream. -/
def CFG.flatten (cfg : CFG) : List Instruction :=
  cfg.blocks.flatMap (flattenBlock cfg.entry)

end ir

namespace semantic

/-- `semantic::SemanticError`. -/
inductive SemanticError
  | undefinedVariable (func_name var_name : String)
  | undefinedFunction (func_name called_from : String)
  | arityMismatch (func_name : String) (expected actual : Nat) (called_from : String)
  | duplicateFunction (func_name : String)
deriving DecidableEq, Repr

/-- The function-name → arity map built by the first loop of
`semantic::check` (`func_signatures`): every function is inserted, later
duplicates overwrite earlier arities. -/
def collectSigs (functions : List ast.Function) : List (String × Nat) :=
  functions.foldl (fun m f => ainsert m f.name f.args.length) []

/-- The duplicate-function errors pushed by the first loop of
`semantic::check` (`seen_functions` is the hash-set accumulator). -/
def dupErrorsGo (seen : Finset String) : List ast.Function → List SemanticError
  | [] => []
  | f :: fs =>
      if f.name ∈ seen then
        SemanticError.duplicateFunction f.name :: dupErrorsGo seen fs
      else
        dupErrorsGo (insert f.name seen) fs

/-- All duplicate-function errors of a program, in declaration order. -/
def dupErrors (functions : List ast.Function) : List SemanticError :=
  dupErrorsGo ∅ functions

mutual

/-- `semantic::check_expr` — the errors it pushes, in push order. -/
def checkExpr (fn : String) (sigs : List (String × Nat)) (scope : Finset String) :
    ast.Expr → List SemanticError
  | .intLit _ => []
  | .var name =>
      if name ∈ scope then [] else [SemanticError.undefinedVariable fn name]
  | .binary _ left right =>
      checkExpr fn sigs scope left ++ checkExpr fn sigs scope right
  | .unary _ operand => checkExpr fn sigs scope operand
  | .fnCall name args =>
      (match alookup sigs name with
        | Option.none => [SemanticError.undefinedFunction name fn]
        | some expected_arity =>
            if args.length ≠ expected_arity then
              [SemanticError.arityMismatch name expected_arity args.length fn]
            else []) ++ checkExprList fn sigs scope args
  | .peripheralRead _ _ => []

/-- The `for arg in args` loop inside `check_expr`'s `FnCall` arm. -/
def checkExprList (fn : String) (sigs : List (String × Nat)) (scope : Finset String) :
    List ast.Expr → List SemanticError
  | [] => []
  | e :: rest => checkExpr fn sigs scope e ++ checkExprList fn sigs scope rest

end

mutual

/-- `semantic::check_statement` — returns the scope after the statement
(only `Let` extends it) together with the errors pushed, in push order. -/
def checkStatement (fn : String) (sigs : List (String × Nat)) (scope : Finset String) :
    ast.Statement → Finset String × List SemanticError
  | .letS var_name value =>
      (insert var_name scope, checkExpr fn sigs scope value)
  | .assign var_name value =>
      (scope,
        (if var_name ∈ scope then [] else [SemanticError.undefinedVariable fn var_name])
          ++ checkExpr fn sigs scope value)
  | .exprS expr => (scope, checkExpr fn sigs scope expr)
  | .returnS expr => (scope, checkExpr fn sigs scope expr)
  | .ifS cond then_block else_block =>
      (scope,
        checkExpr fn sigs scope cond
          ++ (checkStatements fn sigs scope then_block).2
          ++ (checkStatements fn sigs scope else_block).2)
  | .whileS cond body =>
      (scope, checkExpr fn sigs scope cond ++ (checkStatements fn sigs scope body).2)
  | .peripheralWrite _ _ value => (scope, checkExpr fn sigs scope value)

/-- A statement sequence threads the scope left to right (the `&mut scope`
of the Rust); errors are concatenated in push order. -/
def checkStatements (fn : String) (sigs : List (String × Nat)) (scope : Finset String) :
    List ast.Statement → Finset String × List SemanticError
  | [] => (scope, [])
  | s :: rest =>
      let r := checkStatement fn sigs scope s
      let r' := checkStatements fn sigs r.1 rest
      (r'.1, r.2 ++ r'.2)

end

/-- `semantic::check_function` — the initial scope holds the parameter
names; the body is checked statement by statement. -/
def checkFunction (sigs : List (String × Nat)) (f : ast.Function) : List SemanticError :=
  (checkStatements f.name sigs (f.args.foldl (fun s a => insert a.1 s) ∅) f.body).2

/-- The full error list accumulated by `semantic::check`: the duplicate
errors of the first loop, then each function's errors in order. -/
def semErrors (p : ast.Program) : List SemanticError :=
  dupErrors p.functions
    ++ (p.functions.map (checkFunction (collectSigs p.functions))).flatten

/-- `semantic::check` — `Ok(())` exactly when the accumulated error
vector is empty. -/
def semCheck (p : ast.Program) : Except (List SemanticError) Unit :=
  if semErrors p = [] then .ok () else .error (semErrors p)

end semantic

namespace typestate

/-- `typestate::StateEnv` — Σ : peripheral name → current state. -/
abbrev StateEnv := List (String × String)

/-- `typestate::TypestateError`. -/
inductive TypestateError
  | invalidTransition (func_name called_from peripheral expected_state actual_state : String)
  | branchStateMismatch (func_name peripheral then_state else_state : String)
  | loopChangesState (func_name peripheral before after : String)
  | wrongExitState (func_name peripheral expected actual : String)
  | unknownPeripheral (func_name name : String)
deriving DecidableEq, Repr

/-- The `Display` rendering of a typestate error (`impl fmt::Display for
TypestateError`), used by `check` via `format!("{}", err)`. -/
def renderTypestateError : TypestateError → String
  | .invalidTransition func_name called_from peripheral expected_state actual_state =>
      "Call to '" ++ func_name ++ "' requires '" ++ peripheral ++ "' in state '"
        ++ expected_state ++ "', but found '" ++ actual_state ++ "', called from '"
        ++ called_from ++ "'"
  | .branchStateMismatch func_name peripheral then_state else_state =>
      "Branch in " ++ func_name ++ " leaves '" ++ peripheral
        ++ "' in different states: then = '" ++ then_state ++ "', else = '"
        ++ else_state ++ "'"
  | .loopChangesState func_name peripheral before after =>
      "Loop in " ++ func_name ++ " changes state of '" ++ peripheral ++ "' from '"
        ++ before ++ "' to '" ++ after ++ "'"
  | .wrongExitState func_name peripheral expected actual =>
      "Function '" ++ func_name ++ "' declares output state '" ++ expected
        ++ "' for '" ++ peripheral ++ "', but body produces '" ++ actual ++ "'"
  | .unknownPeripheral func_name name =>
      "Unknown peripheral '" ++ name ++ "' in function '" ++ func_name ++ "'"

/-- `typestate::FunctionType`. -/
inductive FunctionType
  | leafDriver
  | compositeDriver
  | orchestration
deriving DecidableEq, Repr

/-- The signature map `HashMap<String, ast::TypeState>`. -/
abbrev SigMap := List (String × ast.TypeState)

/-- `typestate::build_signature_map`. -/
def buildSignatureMap (program : ast.Program) : SigMap :=
  program.functions.foldl
    (fun m f => match f.signature with
      | some sig => ainsert m f.name sig
      | Option.none => m) []

/-- `typestate::init_state_env` — each declared peripheral starts in its
declared initial state. -/
def initStateEnv (peripherals : List ast.Peripheral) : StateEnv :=
  peripherals.foldl (fun env p => ainsert env p.name p.initial) []

/-- One statement of the loop body of `typestate::cfg_calls_drivers`:
`true` for a `PeripheralDriverCall`, or for an `Expr` statement whose
expression is a call to a function present in the signature map. -/
def stmtCallsDriver (signatures : SigMap) : ir.Statement → Bool
  | .peripheralDriverCall _ _ _ _ => true
  | .exprS (.fnCall name _) => (alookup signatures name).isSome
  | _ => false

/-- `typestate::cfg_calls_drivers`. -/
def cfgCallsDrivers (cfg : ir.CFG) (signatures : SigMap) : Bool :=
  cfg.blocks.any (fun block => block.statements.any (stmtCallsDriver signatures))

/-- `typestate::classify_function`. -/
def classifyFunction (func : ast.Function) (cfg : ir.CFG) (signatures : SigMap) :
    FunctionType :=
  match func.signature.isSome, cfgCallsDrivers cfg signatures with
  | true, false => .leafDriver
  | true, true => .compositeDriver
  | false, _ => .orchestration

/-- `typestate::verify_statement` — the effect of one semantic statement
on Σ.  `Let`, `Assign` and `PeripheralWrite` leave Σ unchanged; a driver
call (resolved or via a signed `Expr` call) requires the peripheral to be
in the declared input state and moves it to the declared output state. -/
def verifyStatement (stmt : ir.Statement) (state_env : StateEnv)
    (signatures : SigMap) (func_name : String) : Except TypestateError StateEnv :=
  match stmt with
  | .peripheralDriverCall function peripheral from_state to_state =>
      match alookup state_env peripheral with
      | Option.none => .error (.unknownPeripheral func_name peripheral)
      | some current =>
          if current ≠ from_state then
            .error (.invalidTransition function func_name peripheral from_state current)
          else
            .ok (ainsert state_env peripheral to_state)
  | .exprS (.fnCall name _) =>
      match alookup signatures name with
      | some sig =>
          match alookup state_env sig.peripheral with
          | Option.none => .error (.unknownPeripheral func_name sig.peripheral)
          | some current =>
              if current ≠ sig.input_state then
                .error (.invalidTransition name func_name sig.peripheral
                  sig.input_state current)
              else
                .ok (ainsert state_env sig.peripheral sig.output_state)
      | Option.none => .ok state_env
  | .exprS _ => .ok state_env
  | .letS _ _ => .ok state_env
  | .assign _ _ => .ok state_env
  | .peripheralWrite _ _ _ => .ok state_env

/-- The `for stmt in &block.statements` loop of `verify_block_recursive`. -/
def verifyStatements (stmts : List ir.Statement) (state_env : StateEnv)
    (signatures : SigMap) (func_name : String) : Except TypestateError StateEnv :=
  match stmts with
  | [] => .ok state_env
  | s :: rest =>
      match verifyStatement s state_env signatures func_name with
      | .error e => .error e
      | .ok env' => verifyStatements rest env' signatures func_name

/-- The `for (peripheral, then_state) in &then_env` mismatch scan of the
`Branch` arm of `verify_block_recursive`: the first peripheral present in
both environments whose two states differ, with those states. -/
def branchMismatch : StateEnv → StateEnv → Option (String × String × String)
  | [], _ => Option.none
  | (peripheral, then_state) :: rest, else_env =>
      match alookup else_env peripheral with
      | some else_state =>
          if then_state ≠ else_state then some (peripheral, then_state, else_state)
          else branchMismatch rest else_env
      | Option.none => branchMismatch rest else_env

/-- The block ids a terminator can transfer control to. -/
def termTargets : ir.Terminator → List Nat
  | .jump target => [target]
  | .branch _ then_block else_block => [then_block, else_block]
  | .fallthrough target => [target]
  | .ret _ => []
  | .none => []

/-- Every block id the CFG walk can ever visit: the entry plus all
terminator targets.  Used only as a termination measure for
`verifyBlockRec`. -/
def reachableIds (cfg : ir.CFG) : Finset Nat :=
  insert cfg.entry (cfg.blocks.flatMap (fun b => termTargets b.terminator)).toFinset

theorem block_mem_of_term_ne_none (cfg : ir.CFG) (id : Nat)
    (h : (cfg.block id).terminator ≠ ir.Terminator.none) :
    cfg.block id ∈ cfg.blocks := by
  unfold ir.CFG.block at *
  by_cases hlt : id < cfg.blocks.length
  · rw [List.getD_eq_getElem _ _ hlt]
    exact List.getElem_mem hlt
  · exfalso
    apply h
    rw [List.getD_eq_default _ _ (Nat.le_of_not_lt hlt)]
    rfl

theorem target_mem_reachableIds (cfg : ir.CFG) (id t : Nat)
    (hmem : cfg.block id ∈ cfg.blocks)
    (ht : t ∈ termTargets (cfg.block id).terminator) :
    t ∈ reachableIds cfg := by
  unfold reachableIds
  apply Finset.mem_insert_of_mem
  rw [List.mem_toFinset, List.mem_flatMap]
  exact ⟨cfg.block id, hmem, ht⟩

theorem measure_decreases (cfg : ir.CFG) (block_id t : Nat) (visited : Finset Nat)
    (hv : block_id ∉ visited) (hmem : t ∈ reachableIds cfg) :
    (insert t (reachableIds cfg) \ insert block_id visited).card
      < (insert block_id (reachableIds cfg) \ visited).card := by
  have hins : insert t (reachableIds cfg) = reachableIds cfg := Finset.insert_eq_self.mpr hmem
  rw [hins]
  have hbid : block_id ∈ insert block_id (reachableIds cfg) \ visited := by
    rw [Finset.mem_sdiff]
    exact ⟨Finset.mem_insert_self _ _, hv⟩
  have hsub : reachableIds cfg \ insert block_id visited
      ⊆ (insert block_id (reachableIds cfg) \ visited).erase block_id := by
    intro x hx
    rw [Finset.mem_sdiff, Finset.mem_insert, not_or] at hx
    rw [Finset.mem_erase, Finset.mem_sdiff]
    exact ⟨hx.2.1, Finset.mem_insert_of_mem hx.1, hx.2.2⟩
  calc (reachableIds cfg \ insert block_id visited).card
      ≤ ((insert block_id (reachableIds cfg) \ visited).erase block_id).card :=
        Finset.card_le_card hsub
    _ < (insert block_id (reachableIds cfg) \ visited).card :=
        Finset.card_erase_lt_of_mem hbid

/-- `typestate::verify_block_recursive`.  The Rust mutates Σ and the
visited set in place; here Σ is returned in the `ok` payload and the
visited set is passed downward (each frame reads it only on entry and
each branch arm receives its own clone, so downward threading is exact).
Termination: along any call chain the visited set strictly grows inside
the finite set `reachableIds`. -/
def verifyBlockRec (cfg : ir.CFG) (signatures : SigMap) (func_name : String)
    (block_id : Nat) (state_env : StateEnv) (visited : Finset Nat) :
    Except TypestateError StateEnv :=
  if hv : block_id ∈ visited then
    .ok state_env
  else
    match verifyStatements (cfg.block block_id).statements state_env signatures func_name with
    | .error e => .error e
    | .ok env1 =>
      match hterm : (cfg.block block_id).terminator with
      | .jump target =>
          verifyBlockRec cfg signatures func_name target env1 (insert block_id visited)
      | .branch _ then_block else_block =>
          match verifyBlockRec cfg signatures func_name then_block env1
                  (insert block_id visited),
                verifyBlockRec cfg signatures func_name else_block env1
                  (insert block_id visited) with
          | .error e, _ => .error e
          | .ok _, .error e => .error e
          | .ok then_env, .ok else_env =>
              match branchMismatch then_env else_env with
              | some pse =>
                  .error (.branchStateMismatch func_name pse.1 pse.2.1 pse.2.2)
              | Option.none => .ok then_env
      | .fallthrough target =>
          verifyBlockRec cfg signatures func_name target env1 (insert block_id visited)
      | .ret _ => .ok env1
      | .none => .ok env1
termination_by (insert block_id (reachableIds cfg) \ visited).card
decreasing_by
  all_goals
    apply measure_decreases cfg block_id _ visited hv
    apply target_mem_reachableIds cfg block_id _
      (block_mem_of_term_ne_none cfg block_id (by rw [hterm]; intro hc; cases hc))
    rw [hterm]
    simp [termTargets]

/-- Plain (non-dependent) unfolding equation for `verifyBlockRec`,
convenient for rewriting and for evaluating concrete walks. -/
theorem verifyBlockRec_eq (cfg : ir.CFG) (signatures : SigMap) (func_name : String)
    (block_id : Nat) (state_env : StateEnv) (visited : Finset Nat) :
    verifyBlockRec cfg signatures func_name block_id state_env visited =
      if block_id ∈ visited then .ok state_env
      else
        match verifyStatements (cfg.block block_id).statements state_env signatures func_name with
        | .error e => .error e
        | .ok env1 =>
          match (cfg.block block_id).terminator with
          | .jump target =>
              verifyBlockRec cfg signatures func_name target env1 (insert block_id visited)
          | .branch _ then_block else_block =>
              match verifyBlockRec cfg signatures func_name then_block env1
                      (insert block_id visited),
                    verifyBlockRec cfg signatures func_name else_block env1
                      (insert block_id visited) with
              | .error e, _ => .error e
              | .ok _, .error e => .error e
              | .ok then_env, .ok else_env =>
                  match branchMismatch then_env else_env with
                  | some pse =>
                      .error (.branchStateMismatch func_name pse.1 pse.2.1 pse.2.2)
                  | Option.none => .ok then_env
          | .fallthrough target =>
              verifyBlockRec cfg signatures func_name target env1 (insert block_id visited)
          | .ret _ => .ok env1
          | .none => .ok env1 := by
  rw [verifyBlockRec]
  by_cases h : block_id ∈ visited
  · simp [h]
  · simp only [dif_neg h, if_neg h]
    cases hs : verifyStatements (cfg.block block_id).statements state_env signatures func_name with
    | error e => rfl
    | ok env1 => cases ht : (cfg.block block_id).terminator <;> rfl

/-- Σ′ keeps every peripheral key of Σ (the verifier only ever inserts
into the state environment, never removes). -/
def envKeeps (env env' : StateEnv) : Prop :=
  ∀ k, (alookup env k).isSome → (alookup env' k).isSome

theorem envKeeps_refl (env : StateEnv) : envKeeps env env := fun _ h => h

theorem envKeeps_trans {a b c : StateEnv} (h1 : envKeeps a b) (h2 : envKeeps b c) :
    envKeeps a c := fun k h => h2 k (h1 k h)

theorem envKeeps_ainsert (env : StateEnv) (k v : String) :
    envKeeps env (ainsert env k v) := by
  intro k' h
  rw [alookup_ainsert]
  by_cases hk : k = k' <;> simp [hk, h]

theorem verifyStatement_keeps {stmt : ir.Statement} {env env' : StateEnv}
    {signatures : SigMap} {func_name : String}
    (h : verifyStatement stmt env signatures func_name = .ok env') :
    envKeeps env env' := by
  unfold verifyStatement at h
  split at h
  · split at h
    · cases h
    · split at h
      · cases h
      · cases h
        exact envKeeps_ainsert _ _ _
  · split at h
    · split at h
      · cases h
      · split at h
        · cases h
        · cases h
          exact envKeeps_ainsert _ _ _
    · cases h
      exact envKeeps_refl _
  · cases h; exact envKeeps_refl _
  · cases h; exact envKeeps_refl _
  · cases h; exact envKeeps_refl _
  · cases h; exact envKeeps_refl _

theorem verifyStatement_unknown {stmt : ir.Statement} {env : StateEnv}
    {signatures : SigMap} {func_name m n : String}
    (h : verifyStatement stmt env signatures func_name
      = .error (.unknownPeripheral m n)) :
    alookup env n = Option.none := by
  unfold verifyStatement at h
  split at h
  · split at h
    next hc =>
      cases h
      exact hc
    · split at h
      · cases h
      · cases h
  · split at h
    · split at h
      next hc =>
        cases h
        exact hc
      · split at h
        · cases h
        · cases h
    · cases h
  · cases h
  · cases h
  · cases h
  · cases h

theorem verifyStatements_keeps {stmts : List ir.Statement} {env env' : StateEnv}
    {signatures : SigMap} {func_name : String}
    (h : verifyStatements stmts env signatures func_name = .ok env') :
    envKeeps env env' := by
  induction stmts generalizing env with
  | nil => cases h; exact envKeeps_refl _
  | cons s rest ih =>
    simp only [verifyStatements] at h
    cases hs : verifyStatement s env signatures func_name with
    | error e => rw [hs] at h; cases h
    | ok env1 =>
      rw [hs] at h
      exact envKeeps_trans (verifyStatement_keeps hs) (ih h)

theorem verifyStatements_unknown {stmts : List ir.Statement} {env : StateEnv}
    {signatures : SigMap} {func_name m n : String}
    (h : verifyStatements stmts env signatures func_name
      = .error (.unknownPeripheral m n)) :
    alookup env n = Option.none := by
  induction stmts generalizing env with
  | nil => cases h
  | cons s rest ih =>
    simp only [verifyStatements] at h
    cases hs : verifyStatement s env signatures func_name with
    | error e =>
      rw [hs] at h
      cases h
      exact verifyStatement_unknown hs
    | ok env1 =>
      rw [hs] at h
      have h1 : alookup env1 n = Option.none := ih h
      by_cases h0 : (alookup env n).isSome
      · have := verifyStatement_keeps hs n h0
        rw [h1] at this
        cases this
      · exact Option.not_isSome_iff_eq_none.mp h0

theorem vbr_keeps (cfg : ir.CFG) (signatures : SigMap) (func_name : String)
    (block_id : Nat) (env : StateEnv) (visited : Finset Nat) :
    ∀ env2, verifyBlockRec cfg signatures func_name block_id env visited = .ok env2 →
      envKeeps env env2 := by
  induction block_id, env, visited using verifyBlockRec.induct cfg signatures func_name with
  | case1 block_id env visited hv =>
    intro env2 h
    rw [verifyBlockRec_eq] at h
    simp only [if_pos hv] at h
    cases h
    exact envKeeps_refl _
  | case2 block_id env visited hv e hs =>
    intro env2 h
    rw [verifyBlockRec_eq] at h
    simp only [if_neg hv, hs] at h
    cases h
  | case3 block_id env visited hv env1 hs target hterm ih =>
    intro env2 h
    rw [verifyBlockRec_eq] at h
    simp only [if_neg hv, hs, hterm] at h
    exact envKeeps_trans (verifyStatements_keeps hs) (ih env2 h)
  | case4 block_id env visited hv env1 hs cond then_block else_block hterm e hthen ih1 ih2 =>
    intro env2 h
    rw [verifyBlockRec_eq] at h
    simp only [if_neg hv, hs, hterm, hthen] at h
    cases h
  | case5 block_id env visited hv env1 hs cond then_block else_block hterm a e helse hthen ih1 ih2 =>
    intro env2 h
    rw [verifyBlockRec_eq] at h
    simp only [if_neg hv, hs, hterm, hthen, helse] at h
    cases h
  | case6 block_id env visited hv env1 hs cond then_block else_block hterm then_env else_env helse hthen pse hmm ih1 ih2 =>
    intro env2 h
    rw [verifyBlockRec_eq] at h
    simp only [if_neg hv, hs, hterm, hthen, helse, hmm] at h
    cases h
  | case7 block_id env visited hv env1 hs cond then_block else_block hterm then_env else_env helse hthen hmm ih1 ih2 =>
    intro env2 h
    rw [verifyBlockRec_eq] at h
    simp only [if_neg hv, hs, hterm, hthen, helse, hmm] at h
    cases h
    exact envKeeps_trans (verifyStatements_keeps hs) (ih1 then_env hthen)
  | case8 block_id env visited hv env1 hs target hterm ih =>
    intro env2 h
    rw [verifyBlockRec_eq] at h
    simp only [if_neg hv, hs, hterm] at h
    exact envKeeps_trans (verifyStatements_keeps hs) (ih env2 h)
  | case9 block_id env visited hv env1 hs reg hterm =>
    intro env2 h
    rw [verifyBlockRec_eq] at h
    simp only [if_neg hv, hs, hterm] at h
    cases h
    exact verifyStatements_keeps hs
  | case10 block_id env visited hv env1 hs hterm =>
    intro env2 h
    rw [verifyBlockRec_eq] at h
    simp only [if_neg hv, hs, hterm] at h
    cases h
    exact verifyStatements_keeps hs

theorem vbr_unknown (cfg : ir.CFG) (signatures : SigMap) (func_name : String)
    (block_id : Nat) (env : StateEnv) (visited : Finset Nat) :
    ∀ m n, verifyBlockRec cfg signatures func_name block_id env visited
        = .error (.unknownPeripheral m n) →
      alookup env n = Option.none := by
  induction block_id, env, visited using verifyBlockRec.induct cfg signatures func_name with
  | case1 block_id env visited hv =>
    intro m n h
    rw [verifyBlockRec_eq] at h
    simp only [if_pos hv] at h
    cases h
  | case2 block_id env visited hv e hs =>
    intro m n h
    rw [verifyBlockRec_eq] at h
    simp only [if_neg hv, hs] at h
    cases h
    exact verifyStatements_unknown hs
  | case3 block_id env visited hv env1 hs target hterm ih =>
    intro m n h
    rw [verifyBlockRec_eq] at h
    simp only [if_neg hv, hs, hterm] at h
    have h1 := ih m n h
    by_cases h0 : (alookup env n).isSome
    · have := verifyStatements_keeps hs n h0
      rw [h1] at this
      cases this
    · exact Option.not_isSome_iff_eq_none.mp h0
  | case4 block_id env visited hv env1 hs cond then_block else_block hterm e hthen ih1 ih2 =>
    intro m n h
    rw [verifyBlockRec_eq] at h
    simp only [if_neg hv, hs, hterm, hthen] at h
    cases h
    have h1 := ih1 m n hthen
    by_cases h0 : (alookup env n).isSome
    · have := verifyStatements_keeps hs n h0
      rw [h1] at this
      cases this
    · exact Option.not_isSome_iff_eq_none.mp h0
  | case5 block_id env visited hv env1 hs cond then_block else_block hterm a e helse hthen ih1 ih2 =>
    intro m n h
    rw [verifyBlockRec_eq] at h
    simp only [if_neg hv, hs, hterm, hthen, helse] at h
    cases h
    have h1 := ih2 m n helse
    by_cases h0 : (alookup env n).isSome
    · have := verifyStatements_keeps hs n h0
      rw [h1] at this
      cases this
    · exact Option.not_isSome_iff_eq_none.mp h0
  | case6 block_id env visited hv env1 hs cond then_block else_block hterm then_env else_env helse hthen pse hmm ih1 ih2 =>
    intro m n h
    rw [verifyBlockRec_eq] at h
    simp only [if_neg hv, hs, hterm, hthen, helse, hmm] at h
    cases h
  | case7 block_id env visited hv env1 hs cond then_block else_block hterm then_env else_env helse hthen hmm ih1 ih2 =>
    intro m n h
    rw [verifyBlockRec_eq] at h
    simp only [if_neg hv, hs, hterm, hthen, helse, hmm] at h
    cases h
  | case8 block_id env visited hv env1 hs target hterm ih =>
    intro m n h
    rw [verifyBlockRec_eq] at h
    simp only [if_neg hv, hs, hterm] at h
    have h1 := ih m n h
    by_cases h0 : (alookup env n).isSome
    · have := verifyStatements_keeps hs n h0
      rw [h1] at this
      cases this
    · exact Option.not_isSome_iff_eq_none.mp h0
  | case9 block_id env visited hv env1 hs reg hterm =>
    intro m n h
    rw [verifyBlockRec_eq] at h
    simp only [if_neg hv, hs, hterm] at h
    cases h
  | case10 block_id env visited hv env1 hs hterm =>
    intro m n h
    rw [verifyBlockRec_eq] at h
    simp only [if_neg hv, hs, hterm] at h
    cases h

/-- `typestate::verify_cfg` — walk from the entry block with an empty
visited set. -/
def verifyCfg (cfg : ir.CFG) (state_env : StateEnv) (signatures : SigMap)
    (func_name : String) : Except TypestateError StateEnv :=
  verifyBlockRec cfg signatures func_name cfg.entry state_env ∅

/-- `typestate::verify_function`.  A `LeafDriver` is an axiom and passes
unconditionally.  A `CompositeDriver` walks its CFG starting from the
initial environment overlaid with `Σ[sig.peripheral] := sig.input_state`
and then compares the derived exit state with the declared one.  An
`Orchestration` function only walks its CFG.  (The `compositeDriver`
classification implies the signature is present, so the `none` arm below
is unreachable; the Rust `unwrap`s.) -/
def verifyFunction (func : ast.Function) (cfg : ir.CFG)
    (peripherals : List ast.Peripheral) (signatures : SigMap) :
    Except TypestateError Unit :=
  match classifyFunction func cfg signatures with
  | .leafDriver => .ok ()
  | .compositeDriver =>
      match func.signature with
      | Option.none => .ok ()
      | some sig =>
          let state_env := ainsert (initStateEnv peripherals) sig.peripheral sig.input_state
          match verifyCfg cfg state_env signatures func.name with
          | .error e => .error e
          | .ok env' =>
              match alookup env' sig.peripheral with
              | Option.none => .error (.unknownPeripheral func.name sig.peripheral)
              | some actual =>
                  if actual ≠ sig.output_state then
                    .error (.wrongExitState func.name sig.peripheral sig.output_state actual)
                  else
                    .ok ()
  | .orchestration =>
      match verifyCfg cfg (initStateEnv peripherals) signatures func.name with
      | .error e => .error e
      | .ok _ => .ok ()

/-- The `for (i, (_, cfg)) in ir.iter().enumerate()` loop of
`typestate::check`, walking the function list and the lowered CFG list in
step.  (The Rust indexes `program.functions[i]`, which panics when `ir`
is longer than the function list; the driver always passes parallel
lists, so that case is modelled as success.) -/
def checkGo (peripherals : List ast.Peripheral) (signatures : SigMap) :
    List ast.Function → List ir.CFG → Except String Unit
  | _, [] => .ok ()
  | [], _ :: _ => .ok ()
  | func :: funcs, cfg :: cfgs =>
      match verifyFunction func cfg peripherals signatures with
      | .error err => .error (renderTypestateError err)
      | .ok () => checkGo peripherals signatures funcs cfgs

/-- `typestate::check` — verify each lowered function against the program
in order, stopping at the first error and rendering it. -/
def check (program : ast.Program) (lowered : List (String × ir.CFG)) :
    Except String Unit :=
  checkGo program.peripherals (buildSignatureMap program) program.functions
    (lowered.map Prod.snd)

end typestate

namespace backend

/-- `liveness::BlockLiveness` — the four per-block register sets. -/
structure BlockLiveness where
  live_in : Finset Nat
  live_out : Finset Nat
  use_set : Finset Nat
  def_set : Finset Nat
deriving DecidableEq

/-- `liveness::LivenessResult` — `HashMap<BlockId, BlockLiveness>`. -/
abbrev LivenessResult := List (Nat × BlockLiveness)

/-- The first loop of `liveness::analyse` over one block's instructions:
an argument read before any definition of it joins `use`, every
destination joins `def`. -/
def useDefInstrs : List ir.Instruction → Finset Nat × Finset Nat → Finset Nat × Finset Nat
  | [], acc => acc
  | instr :: rest, (use_set, def_set) =>
      let use_set := instr.args.foldl
        (fun u arg => if arg ∈ def_set then u else insert arg u) use_set
      let def_set := match instr.destination with
        | some dest => insert dest def_set
        | Option.none => def_set
      useDefInstrs rest (use_set, def_set)

/-- The terminator's reads (branch condition, returned register) join
`use` when not already defined in the block. -/
def useDefTerm (term : ir.Terminator) (acc : Finset Nat × Finset Nat) :
    Finset Nat × Finset Nat :=
  match term, acc with
  | .branch cond _ _, (use_set, def_set) =>
      (if cond ∈ def_set then use_set else insert cond use_set, def_set)
  | .ret (some reg), (use_set, def_set) =>
      (if reg ∈ def_set then use_set else insert reg use_set, def_set)
  | _, acc => acc

/-- A block's `use`/`def` pair as computed by the first loop of
`liveness::analyse`. -/
def useDefOf (b : ir.BasicBlock) : Finset Nat × Finset Nat :=
  useDefTerm b.terminator (useDefInstrs b.instructions (∅, ∅))

/-- The initial liveness map: empty `live_in`/`live_out`, computed
`use`/`def`, one entry per block in block order. -/
def initResult (cfg : ir.CFG) : LivenessResult :=
  cfg.blocks.foldl
    (fun result b =>
      ainsert result b.id ⟨∅, ∅, (useDefOf b).1, (useDefOf b).2⟩) []

/-- `liveness::get_successors`. -/
def getSuccessors : ir.Terminator → List Nat
  | .jump target => [target]
  | .branch _ then_block else_block => [then_block, else_block]
  | .fallthrough target => [target]
  | .ret _ => []
  | .none => []

/-- A successor's `live_in`, empty when the block id has no entry
(the `if let Some` of the Rust; `s ∪ ∅ = s`, so folding the default is
exactly the skip). -/
def liveInOf (result : LivenessResult) (id : Nat) : Finset Nat :=
  match alookup result id with
  | some l => l.live_in
  | Option.none => ∅

/-- `new_live_out` of the fixed-point loop: the union of the successors'
`live_in` sets (a missing successor entry contributes nothing, exactly
the `if let Some` skip of the Rust). -/
def succLiveUnion (result : LivenessResult) (b : ir.BasicBlock) : Finset Nat :=
  (getSuccessors b.terminator).foldl (fun s succ_id => s ∪ liveInOf result succ_id) ∅

/-- The body of the fixed-point loop of `liveness::analyse` for one block:
recompute `live_out` from the successors and `live_in` from the dataflow
equation, store them when they changed and raise the `changed` flag. -/
def passStep (acc : LivenessResult × Bool) (b : ir.BasicBlock) :
    LivenessResult × Bool :=
  let new_live_out := succLiveUnion acc.1 b
  match alookup acc.1 b.id with
  | Option.none => acc
  | some l =>
      let new_live_in := l.use_set ∪ (new_live_out \ l.def_set)
      if new_live_in ≠ l.live_in ∨ new_live_out ≠ l.live_out then
        (ainsert acc.1 b.id { l with live_in := new_live_in, live_out := new_live_out },
          true)
      else
        acc

/-- One full `for block in cfg.blocks.iter().rev()` pass of
`liveness::analyse`, returning the updated map and the `changed` flag. -/
def analysePass (cfg : ir.CFG) (result : LivenessResult) : LivenessResult × Bool :=
  cfg.blocks.reverse.foldl passStep (result, false)

/-- The `while changed` loop of `liveness::analyse`, made total with
fuel: `none` means the fuel ran out before the map stabilised (the Rust
keeps iterating; the loop converges on every input because the sets grow
monotonically, and any successful return of this function is a faithful
run of the Rust loop). -/
def analyseLoop (cfg : ir.CFG) : Nat → LivenessResult → Option LivenessResult
  | 0, _ => Option.none
  | fuel + 1, result =>
      match analysePass cfg result with
      | (result', true) => analyseLoop cfg fuel result'
      | (result', false) => some result'

/-- `liveness::analyse`, fuelled. -/
def analyse (fuel : Nat) (cfg : ir.CFG) : Option LivenessResult :=
  analyseLoop cfg fuel (initResult cfg)

/-- Stable insertion of `x` into a list: `x` is placed after every
element `y` with `le y x`, so equal-key elements keep their order. -/
def insertSorted {α : Type} (le : α → α → Bool) (x : α) : List α → List α
  | [] => [x]
  | y :: ys => if le y x then y :: insertSorted le x ys else x :: y :: ys

/-- A stable sort (insertion sort).  Rust's `sort_by_key` is a stable
sort, and the output of a stable sort is uniquely determined by the
comparison and the input order, so this is an exact embedding of it. -/
def stableSortBy {α : Type} (le : α → α → Bool) (l : List α) : List α :=
  l.foldl (fun acc x => insertSorted le x acc) []

theorem mem_insertSorted {α : Type} (le : α → α → Bool) (x : α) :
    ∀ (l : List α) (a : α), a ∈ insertSorted le x l ↔ a = x ∨ a ∈ l := by
  intro l
  induction l with
  | nil => intro a; simp [insertSorted]
  | cons y ys ih =>
    intro a
    unfold insertSorted
    split
    · rw [List.mem_cons, ih a, List.mem_cons]
      tauto
    · simp [List.mem_cons]

theorem mem_stableSortBy {α : Type} (le : α → α → Bool) (l : List α) (a : α) :
    a ∈ stableSortBy le l ↔ a ∈ l := by
  unfold stableSortBy
  suffices h : ∀ (l2 : List α) (acc : List α),
      a ∈ l2.foldl (fun acc x => insertSorted le x acc) acc ↔ a ∈ acc ∨ a ∈ l2 by
    rw [h l []]
    simp
  intro l2
  induction l2 with
  | nil => intro acc; simp
  | cons x xs ih =>
    intro acc
    rw [List.foldl_cons, ih, mem_insertSorted]
    simp [List.mem_cons]
    tauto

/-- `regalloc::REGISTERS`. -/
def REGISTERS : List String := ["t0", "t1", "t2", "t3", "t4", "t5", "t6"]

/-- `regalloc::LiveInterval` (`iend` is its Rust `end`, a keyword). -/
structure LiveInterval where
  vreg : Nat
  istart : Nat
  iend : Nat
deriving DecidableEq, Repr

/-- `intervals.entry(v).and_modify(f).or_insert(dflt)`. -/
def ientry (m : List (Nat × Nat × Nat)) (k : Nat) (f : Nat × Nat → Nat × Nat)
    (dflt : Nat × Nat) : List (Nat × Nat × Nat) :=
  match m with
  | [] => [(k, dflt)]
  | (k', v) :: rest =>
      if k' = k then (k, f v) :: rest else (k', v) :: ientry rest k f dflt

/-- One instruction of the numbering loop of `regalloc::build_intervals`:
the destination and the arguments extend (or open) their intervals at the
current program point, which then advances. -/
def instrStep (acc : List (Nat × Nat × Nat) × Nat) (instr : ir.Instruction) :
    List (Nat × Nat × Nat) × Nat :=
  let (m, pp) := acc
  let m := match instr.destination with
    | some dest => ientry m dest (fun se => (se.1, max se.2 pp)) (pp, pp)
    | Option.none => m
  let m := instr.args.foldl
    (fun m2 arg => ientry m2 arg (fun se => (se.1, max se.2 pp)) (pp, pp)) m
  (m, pp + 1)

/-- The elements of a finite set of register ids, in ascending order.
Used to iterate a Rust `HashSet`: the set's iteration order is
arbitrary and every update performed per element commutes with the
others, so any enumeration is a faithful run. -/
def ascList (s : Finset Nat) : List Nat :=
  match s.max with
  | some m => (List.range (m + 1)).filter (fun x => x ∈ s)
  | ⊥ => []

/-- The `live_in` extension at the start of a block (`for vreg in
&block_liveness.live_in`): each live-in register's interval is widened to
the block's first program point.  The Rust iterates the hash-set in
arbitrary order; every update at one program point commutes, so the
sorted order is a faithful run. -/
def liveInStage (liveness : LivenessResult) (b : ir.BasicBlock) (pp : Nat)
    (m : List (Nat × Nat × Nat)) : List (Nat × Nat × Nat) :=
  match alookup liveness b.id with
  | some l => (ascList l.live_in).foldl
      (fun m2 vreg => ientry m2 vreg
        (fun se => (min se.1 pp, max se.2 pp)) (pp, pp)) m
  | Option.none => m

/-- The terminator reads (`Branch` condition, `Return` register) extend
their intervals at the block's final program point. -/
def termStage (term : ir.Terminator) (pp : Nat)
    (m : List (Nat × Nat × Nat)) : List (Nat × Nat × Nat) :=
  match term with
  | .branch cond _ _ =>
      ientry m cond (fun se => (se.1, max se.2 pp)) (pp, pp)
  | .ret (some reg) =>
      ientry m reg (fun se => (se.1, max se.2 pp)) (pp, pp)
  | _ => m

/-- Registers live out of the block have their interval extended to the
block's final program point. -/
def liveOutStage (liveness : LivenessResult) (b : ir.BasicBlock) (pp : Nat)
    (m : List (Nat × Nat × Nat)) : List (Nat × Nat × Nat) :=
  match alookup liveness b.id with
  | some l => (ascList l.live_out).foldl
      (fun m2 vreg => ientry m2 vreg (fun se => (se.1, max se.2 pp)) (pp, pp)) m
  | Option.none => m

/-- The per-block body of `regalloc::build_intervals`: live-in extension,
instruction numbering (one program point per instruction), terminator
reads, live-out extension. -/
def buildBlock (liveness : LivenessResult) (acc : List (Nat × Nat × Nat) × Nat)
    (b : ir.BasicBlock) : List (Nat × Nat × Nat) × Nat :=
  let m1 := liveInStage liveness b acc.2 acc.1
  let step2 := b.instructions.foldl instrStep (m1, acc.2)
  let m3 := termStage b.terminator step2.2 step2.1
  (liveOutStage liveness b step2.2 m3, step2.2)

/-- `regalloc::build_intervals`: accumulate the interval map over all
blocks, then sort the intervals by start point (stably, like Rust's
`sort_by_key`).  The Rust collects from a `HashMap` in arbitrary order;
insertion order is one such order. -/
def build_intervals (cfg : ir.CFG) (liveness : LivenessResult) : List LiveInterval :=
  let m := (cfg.blocks.foldl (buildBlock liveness) ([], 0)).1
  stableSortBy (fun a b => a.istart ≤ b.istart)
    (m.map (fun kv => LiveInterval.mk kv.1 kv.2.1 kv.2.2))

/-- `regalloc::Allocation` — `HashMap<VirtualRegister, String>`. -/
abbrev Allocation := List (Nat × String)

/-- One iteration of the `for interval in intervals` loop of
`regalloc::linear_scan`.  The free pool is a `Vec` popped from its back;
`active` is re-sorted by interval end (stably) before the spill decision. -/
def scanStep (st : Allocation × List (LiveInterval × String) × List String)
    (interval : LiveInterval) : Allocation × List (LiveInterval × String) × List String :=
  let (allocation, active, free) := st
  let expired_regs := (active.filter (fun p => p.1.iend < interval.istart)).map Prod.snd
  let active := active.filter (fun p => ¬ p.1.iend < interval.istart)
  let free := free ++ expired_regs
  let active := stableSortBy (fun a b => a.1.iend ≤ b.1.iend) active
  match free.getLast? with
  | some reg =>
      (ainsert allocation interval.vreg reg, active ++ [(interval, reg)], free.dropLast)
  | Option.none =>
      match active.getLast? with
      | some (spill_candidate, spill_reg) =>
          if spill_candidate.iend > interval.iend then
            (ainsert allocation interval.vreg spill_reg,
              active.dropLast ++ [(interval, spill_reg)], free)
          else
            (ainsert allocation interval.vreg
              (REGISTERS.getD (interval.vreg % REGISTERS.length) ""), active, free)
      | Option.none =>
          (ainsert allocation interval.vreg
            (REGISTERS.getD (interval.vreg % REGISTERS.length) ""), active, free)

/-- `regalloc::linear_scan`. -/
def linear_scan (intervals : List LiveInterval) : Allocation :=
  (intervals.foldl scanStep ([], [], REGISTERS.reverse)).1

/-- Whether a terminator reads virtual register `r` (branch condition or
returned register). -/
def readsVreg (term : ir.Terminator) (r : Nat) : Bool :=
  match term with
  | .branch cond _ _ => cond == r
  | .ret (some reg) => reg == r
  | _ => false

/-- Whether a block touches virtual register `r`. -/
def touchedInBlock (b : ir.BasicBlock) (r : Nat) : Bool :=
  b.instructions.any (fun i => i.destination == some r || i.args.contains r)
    || readsVreg b.terminator r

/-- Whether the CFG references virtual register `r` at all: as a
destination or argument of an instruction, as a branch condition, or as
a returned register. -/
def vregTouched (cfg : ir.CFG) (r : Nat) : Bool :=
  cfg.blocks.any (fun b => touchedInBlock b r)

/-- `regalloc::allocate`, fuelled through the liveness fixed point. -/
def allocate (fuel : Nat) (cfg : ir.CFG) : Option Allocation :=
  (analyse fuel cfg).map (fun liveness => linear_scan (build_intervals cfg liveness))

end backend

namespace typestate

theorem branchMismatch_none_iff (then_env else_env : StateEnv) :
    branchMismatch then_env else_env = Option.none ↔
      ∀ p ts, (p, ts) ∈ then_env →
        ∀ es, alookup else_env p = some es → ts = es := by
  induction then_env with
  | nil => simp [branchMismatch]
  | cons pt rest ih =>
    obtain ⟨p0, ts0⟩ := pt
    cases hl : alookup else_env p0 with
    | none =>
      unfold branchMismatch
      simp only [hl]
      rw [ih]
      constructor
      · intro h p ts hmem es hes
        rcases List.mem_cons.mp hmem with heq | hmem2
        · cases heq
          rw [hl] at hes
          cases hes
        · exact h p ts hmem2 es hes
      · intro h p ts hmem es hes
        exact h p ts (List.mem_cons_of_mem _ hmem) es hes
    | some es0 =>
      unfold branchMismatch
      simp only [hl]
      by_cases hne : ts0 = es0
      · rw [if_neg (by simp [hne]), ih]
        constructor
        · intro h p ts hmem es hes
          rcases List.mem_cons.mp hmem with heq | hmem2
          · cases heq
            rw [hl] at hes
            cases hes
            exact hne
          · exact h p ts hmem2 es hes
        · intro h p ts hmem es hes
          exact h p ts (List.mem_cons_of_mem _ hmem) es hes
      · rw [if_pos hne]
        constructor
        · intro h; cases h
        · intro h
          exact absurd (h p0 ts0 (List.mem_cons_self _ _) es0 hl) hne

theorem branchMismatch_some (then_env else_env : StateEnv) (p ts es : String)
    (h : branchMismatch then_env else_env = some (p, ts, es)) :
    (p, ts) ∈ then_env ∧ alookup else_env p = some es ∧ ts ≠ es := by
  induction then_env with
  | nil => cases h
  | cons pt rest ih =>
    obtain ⟨p0, ts0⟩ := pt
    cases hl : alookup else_env p0 with
    | none =>
      unfold branchMismatch at h
      simp only [hl] at h
      obtain ⟨h1, h2, h3⟩ := ih h
      exact ⟨List.mem_cons_of_mem _ h1, h2, h3⟩
    | some es0 =>
      unfold branchMismatch at h
      simp only [hl] at h
      by_cases hne : ts0 = es0
      · rw [if_neg (by simp [hne])] at h
        obtain ⟨h1, h2, h3⟩ := ih h
        exact ⟨List.mem_cons_of_mem _ h1, h2, h3⟩
      · rw [if_pos hne] at h
        cases h
        exact ⟨List.mem_cons_self _ _, hl, hne⟩

/-- Two state environments agree wherever both define a peripheral (the
property tested by the mismatch scan of the `Branch` rule). -/
def envAgree (then_env else_env : StateEnv) : Prop :=
  ∀ p ts, (p, ts) ∈ then_env → ∀ es, alookup else_env p = some es → ts = es

/-- Reduction of `verifyFunction` on a `CompositeDriver`. -/
theorem verifyFunction_composite (func : ast.Function) (cfg : ir.CFG)
    (peripherals : List ast.Peripheral) (signatures : SigMap) (sig : ast.TypeState)
    (hsig : func.signature = some sig)
    (hclass : classifyFunction func cfg signatures = .compositeDriver) :
    verifyFunction func cfg peripherals signatures =
      match verifyCfg cfg (ainsert (initStateEnv peripherals) sig.peripheral
          sig.input_state) signatures func.name with
      | .error e => .error e
      | .ok env' =>
          match alookup env' sig.peripheral with
          | Option.none => .error (.unknownPeripheral func.name sig.peripheral)
          | some actual =>
              if actual ≠ sig.output_state then
                .error (.wrongExitState func.name sig.peripheral sig.output_state actual)
              else .ok () := by
  unfold verifyFunction
  rw [hclass, hsig]

end typestate

namespace claims

open typestate

/-- C9: For every statement of kind Let, Assign, or PeripheralWrite, the
verifier's statement step leaves the state environment Σ unchanged (the
same mapping before and after the step). -/
theorem C9_let_assign_write_frame (env : StateEnv) (signatures : SigMap)
    (func_name : String) :
    (∀ n v, verifyStatement (.letS n v) env signatures func_name = .ok env) ∧
    (∀ n v, verifyStatement (.assign n v) env signatures func_name = .ok env) ∧
    (∀ p r v, verifyStatement (.peripheralWrite p r v) env signatures func_name
      = .ok env) :=
  ⟨fun _ _ => rfl, fun _ _ => rfl, fun _ _ _ => rfl⟩

/-- C4: a function with a typestate signature whose CFG contains no
`PeripheralDriverCall` statement and no `Expr` statement calling a signed
function is classified `LeafDriver` and accepted unconditionally — its
body is never checked against the declared transition (the conclusion
holds for every body and every peripheral list). -/
theorem C4_leaf_driver_trusted (func : ast.Function) (cfg : ir.CFG)
    (peripherals : List ast.Peripheral) (signatures : SigMap) (sig : ast.TypeState)
    (hsig : func.signature = some sig)
    (hnone : ∀ b ∈ cfg.blocks, ∀ s ∈ b.statements, stmtCallsDriver signatures s = false) :
    classifyFunction func cfg signatures = .leafDriver ∧
      verifyFunction func cfg peripherals signatures = .ok () := by
  have hcd : cfgCallsDrivers cfg signatures = false := by
    unfold cfgCallsDrivers
    simp only [List.any_eq_false]
    intro b hb
    rw [Bool.not_eq_true]
    simp only [List.any_eq_false]
    intro s hs
    rw [Bool.not_eq_true]
    exact hnone b hb s hs
  have hclass : classifyFunction func cfg signatures = .leafDriver := by
    unfold classifyFunction
    rw [hsig, hcd]
    rfl
  refine ⟨hclass, ?_⟩
  unfold verifyFunction
  rw [hclass]

/-- C2: at a block ending in a `Branch` terminator the verifier runs the
two successors on independent clones of Σ (both recursions start from
the same post-statement environment `env1`) and independent clones of
the visited set (both receive `insert block_id visited`); when both
succeed, the step succeeds with post-state `then_env` exactly when every
peripheral present in both environments has equal states, and otherwise
reports `BranchStateMismatch` for a concrete disagreeing peripheral. -/
theorem C2_branch_independent_merge (cfg : ir.CFG) (signatures : SigMap)
    (func_name : String) (block_id : Nat) (env env1 then_env else_env : StateEnv)
    (visited : Finset Nat) (cond : Nat) (then_block else_block : Nat)
    (hv : block_id ∉ visited)
    (hs : verifyStatements (cfg.block block_id).statements env signatures func_name
      = .ok env1)
    (hterm : (cfg.block block_id).terminator
      = ir.Terminator.branch cond then_block else_block)
    (hthen : verifyBlockRec cfg signatures func_name then_block env1
      (insert block_id visited) = .ok then_env)
    (helse : verifyBlockRec cfg signatures func_name else_block env1
      (insert block_id visited) = .ok else_env) :
    (envAgree then_env else_env →
      verifyBlockRec cfg signatures func_name block_id env visited = .ok then_env) ∧
    (¬ envAgree then_env else_env →
      ∃ p ts es,
        verifyBlockRec cfg signatures func_name block_id env visited
          = .error (.branchStateMismatch func_name p ts es) ∧
        (p, ts) ∈ then_env ∧ alookup else_env p = some es ∧ ts ≠ es) := by
  have hmain : verifyBlockRec cfg signatures func_name block_id env visited
      = (match branchMismatch then_env else_env with
        | some pse => .error (.branchStateMismatch func_name pse.1 pse.2.1 pse.2.2)
        | Option.none => .ok then_env) := by
    rw [verifyBlockRec_eq]
    simp only [if_neg hv, hs, hterm, hthen, helse]
  constructor
  · intro hagree
    rw [hmain, (branchMismatch_none_iff then_env else_env).mpr hagree]
  · intro hdis
    cases hmm : branchMismatch then_env else_env with
    | none => exact absurd ((branchMismatch_none_iff then_env else_env).mp hmm) hdis
    | some pse =>
      obtain ⟨p, ts, es⟩ := pse
      obtain ⟨h1, h2, h3⟩ := branchMismatch_some then_env else_env p ts es hmm
      refine ⟨p, ts, es, ?_, h1, h2, h3⟩
      rw [hmain, hmm]

/-- C3: for a `CompositeDriver` whose CFG walk succeeds with final
environment `envF`, the derived state of the signature's peripheral is
always defined, and verification reports `WrongExitState` — carrying
`expected = declared output state` and `actual = derived state` — if and
only if the derived state differs from the declared output state;
otherwise it succeeds. -/
theorem C3_wrong_exit_state_iff (func : ast.Function) (cfg : ir.CFG)
    (peripherals : List ast.Peripheral) (signatures : SigMap)
    (sig : ast.TypeState) (envF : StateEnv)
    (hsig : func.signature = some sig)
    (hclass : classifyFunction func cfg signatures = .compositeDriver)
    (hwalk : verifyCfg cfg (ainsert (initStateEnv peripherals) sig.peripheral
      sig.input_state) signatures func.name = .ok envF) :
    ∃ actual, alookup envF sig.peripheral = some actual ∧
      ((actual = sig.output_state ∧
          verifyFunction func cfg peripherals signatures = .ok ()) ∨
        (actual ≠ sig.output_state ∧
          verifyFunction func cfg peripherals signatures
            = .error (.wrongExitState func.name sig.peripheral sig.output_state
                actual))) := by
  have hkeep : envKeeps (ainsert (initStateEnv peripherals) sig.peripheral
      sig.input_state) envF :=
    vbr_keeps cfg signatures func.name cfg.entry _ ∅ envF hwalk
  have hsome : (alookup envF sig.peripheral).isSome := by
    apply hkeep
    rw [alookup_ainsert_self]
    rfl
  obtain ⟨actual, ha⟩ := Option.isSome_iff_exists.mp hsome
  refine ⟨actual, ha, ?_⟩
  have hvf : verifyFunction func cfg peripherals signatures
      = (if actual ≠ sig.output_state then
          .error (.wrongExitState func.name sig.peripheral sig.output_state actual)
        else .ok ()) := by
    rw [verifyFunction_composite func cfg peripherals signatures sig hsig hclass]
    simp only [hwalk, ha]
  by_cases hne : actual = sig.output_state
  · left
    refine ⟨hne, ?_⟩
    rw [hvf]
    simp [hne]
  · right
    refine ⟨hne, ?_⟩
    rw [hvf]
    simp [hne]

/-- C10: a `CompositeDriver` whose signature names an undeclared
peripheral never triggers `UnknownPeripheral` for that peripheral: the
input-state overlay inserts the signature's peripheral into Σ before the
walk, the walk only adds keys, and both the driver-call lookup and the
exit-state lookup therefore succeed for it (the witness shows such a
function being accepted outright). -/
theorem C10_overlay_hides_undeclared (func : ast.Function) (cfg : ir.CFG)
    (peripherals : List ast.Peripheral) (signatures : SigMap) (sig : ast.TypeState)
    (hsig : func.signature = some sig)
    (hclass : classifyFunction func cfg signatures = .compositeDriver)
    (hund : sig.peripheral ∉ peripherals.map ast.Peripheral.name) :
    ∀ m n, verifyFunction func cfg peripherals signatures
        = .error (.unknownPeripheral m n) → n ≠ sig.peripheral := by
  intro m n h hnp
  rw [verifyFunction_composite func cfg peripherals signatures sig hsig hclass] at h
  have hself : (alookup (ainsert (initStateEnv peripherals) sig.peripheral
      sig.input_state) sig.peripheral).isSome := by
    rw [alookup_ainsert_self]
    rfl
  cases hwalk : verifyCfg cfg (ainsert (initStateEnv peripherals) sig.peripheral
      sig.input_state) signatures func.name with
  | error e =>
    simp only [hwalk] at h
    cases h
    have hnone := vbr_unknown cfg signatures func.name cfg.entry _ ∅ m n hwalk
    rw [hnp] at hnone
    rw [hnone] at hself
    cases hself
  | ok envF =>
    simp only [hwalk] at h
    have hkeep : envKeeps (ainsert (initStateEnv peripherals) sig.peripheral
        sig.input_state) envF :=
      vbr_keeps cfg signatures func.name cfg.entry _ ∅ envF hwalk
    have hsome := hkeep sig.peripheral hself
    cases ha : alookup envF sig.peripheral with
    | none => rw [ha] at hsome; cases hsome
    | some actual =>
      simp only [ha] at h
      by_cases hne : actual = sig.output_state
      · simp [hne] at h
      · simp [hne] at h

/-- Leaf-driver witness input: a signed function whose body performs no
transition at all, declared `T<Off> -> T<On>`. -/
def funcW4 : ast.Function := ⟨"w4", [], some ⟨"T", "Off", "On"⟩, []⟩

def cfgW4 : ir.CFG := ⟨[⟨0, [], [], .ret Option.none⟩], 0⟩

theorem C4_leaf_driver_trusted_witness :
    classifyFunction funcW4 cfgW4 [] = .leafDriver ∧
      verifyFunction funcW4 cfgW4 [⟨"T", Option.none, ["Off", "On"], "Off", []⟩] []
        = .ok () :=
  C4_leaf_driver_trusted funcW4 cfgW4 _ [] ⟨"T", "Off", "On"⟩ rfl (by decide)

/-- Composite-driver witness input whose signature names the peripheral
`Q`, which is not declared anywhere. -/
def funcW10 : ast.Function := ⟨"w10", [], some ⟨"Q", "Init", "Run"⟩, []⟩

def cfgW10 : ir.CFG :=
  ⟨[⟨0, [.peripheralDriverCall "g" "Q" "Init" "Run"], [], .ret Option.none⟩], 0⟩

theorem C10_overlay_hides_undeclared_witness :
    verifyFunction funcW10 cfgW10 [] [] = .ok () ∧
      verifyFunction funcW10 cfgW10 [] []
        ≠ .error (.unknownPeripheral "w10" "Q") := by
  constructor
  · rw [verifyFunction_composite funcW10 cfgW10 [] [] ⟨"Q", "Init", "Run"⟩ rfl
      (by decide)]
    have hwalk : verifyCfg cfgW10 (ainsert (initStateEnv []) "Q" "Init") []
        funcW10.name = .ok [("Q", "Run")] := by
      unfold verifyCfg
      rw [verifyBlockRec_eq]
      simp [funcW10, cfgW10, ir.CFG.block, verifyStatements, verifyStatement, alookup,
        ainsert, initStateEnv]
    simp only [hwalk]
    simp [alookup]
  · exact fun h =>
      C10_overlay_hides_undeclared funcW10 cfgW10 [] [] ⟨"Q", "Init", "Run"⟩ rfl
        (by decide) (by decide) "w10" "Q" h rfl

/-- Composite-driver witness input for the exit-state check: declared
`T<Off> -> T<Off>` but the body drives `T` to `On`. -/
def funcW3 : ast.Function := ⟨"w3", [], some ⟨"T", "Off", "Off"⟩, []⟩

def cfgW3 : ir.CFG :=
  ⟨[⟨0, [.peripheralDriverCall "enable" "T" "Off" "On"], [], .ret Option.none⟩], 0⟩

theorem C3_wrong_exit_state_iff_witness :
    verifyFunction funcW3 cfgW3 [] [] = .error (.wrongExitState "w3" "T" "Off" "On") := by
  have hwalk : verifyCfg cfgW3 (ainsert (initStateEnv []) "T" "Off") [] "w3"
      = .ok [("T", "On")] := by
    unfold verifyCfg
    rw [verifyBlockRec_eq]
    simp [cfgW3, ir.CFG.block, verifyStatements, verifyStatement, alookup,
      ainsert, initStateEnv]
  obtain ⟨actual, ha, hcase⟩ :=
    C3_wrong_exit_state_iff funcW3 cfgW3 [] [] ⟨"T", "Off", "Off"⟩ [("T", "On")]
      rfl (by decide) hwalk
  simp only [alookup, if_pos rfl] at ha
  cases ha
  rcases hcase with ⟨heq, _⟩ | ⟨_, hrep⟩
  · exact absurd heq (by decide)
  · exact hrep

/-- Branch witness input: a diamond whose two arms do nothing, so the
two cloned environments agree and the branch verifies with the
then-environment as post-state. -/
def cfgW2 : ir.CFG :=
  ⟨[⟨0, [], [], .branch 7 1 2⟩,
    ⟨1, [], [], .ret Option.none⟩,
    ⟨2, [], [], .ret Option.none⟩], 0⟩

theorem C2_branch_independent_merge_witness :
    verifyBlockRec cfgW2 [] "w2" 0 [("T", "Off")] ∅ = .ok [("T", "Off")] := by
  have harm1 : verifyBlockRec cfgW2 [] "w2" 1 [("T", "Off")] (insert 0 ∅)
      = .ok [("T", "Off")] := by
    rw [verifyBlockRec_eq]
    simp [cfgW2, ir.CFG.block, verifyStatements]
  have harm2 : verifyBlockRec cfgW2 [] "w2" 2 [("T", "Off")] (insert 0 ∅)
      = .ok [("T", "Off")] := by
    rw [verifyBlockRec_eq]
    simp [cfgW2, ir.CFG.block, verifyStatements]
  refine (C2_branch_independent_merge cfgW2 [] "w2" 0 [("T", "Off")] [("T", "Off")]
    [("T", "Off")] [("T", "Off")] ∅ 7 1 2 (by decide) rfl rfl harm1 harm2).1 ?_
  intro p ts hmem es hes
  rw [List.mem_singleton] at hmem
  cases hmem
  simp [alookup] at hes
  exact hes

/-- Instruction classifiers for the flattened stream. -/
def isLabelI (i : ir.Instruction) : Bool :=
  match i.operation with | .label _ => true | _ => false

def isJumpI (i : ir.Instruction) : Bool :=
  match i.operation with | .jump _ => true | _ => false

def isBranchIfFalseI (i : ir.Instruction) : Bool :=
  match i.operation with | .branchIfFalse _ => true | _ => false

def isRetI (i : ir.Instruction) : Bool :=
  match i.operation with | .ret _ => true | _ => false

def labelOf (i : ir.Instruction) : Option String :=
  match i.operation with | .label s => some s | _ => Option.none

/-- Ops that `CFG::flatten` synthesizes (labels and terminator-derived
instructions); lowered block bodies contain none of these. -/
def isTermDerivedOp (op : ir.Op) : Bool :=
  match op with
  | .label _ => true
  | .jump _ => true
  | .branchIfFalse _ => true
  | .ret _ => true
  | _ => false

def isJumpT : ir.Terminator → Bool
  | .jump _ => true | _ => false

def isBranchT : ir.Terminator → Bool
  | .branch _ _ _ => true | _ => false

def isRetT : ir.Terminator → Bool
  | .ret _ => true | _ => false

def isFallT : ir.Terminator → Bool
  | .fallthrough _ => true | _ => false

/-- A `Branch` whose then-successor is not the next block gets an extra
`Jump` during flattening. -/
def branchExtraJump (b : ir.BasicBlock) : Bool :=
  match b.terminator with
  | .branch _ then_block _ => decide (then_block ≠ b.id + 1)
  | _ => false

/-- A `Fallthrough` to a block other than the next one gets a `Jump`. -/
def fallJump (b : ir.BasicBlock) : Bool :=
  match b.terminator with
  | .fallthrough target => decide (target ≠ b.id + 1)
  | _ => false

theorem flattenBlock_labels (entry : Nat) (b : ir.BasicBlock)
    (hb : ∀ i ∈ b.instructions, isTermDerivedOp i.operation = false) :
    (ir.flattenBlock entry b).filterMap labelOf
      = if b.id ≠ entry then [ir.labelName b.id] else [] := by
  unfold ir.flattenBlock
  rw [List.filterMap_append, List.filterMap_append]
  have h1 : b.instructions.filterMap labelOf = [] := by
    rw [List.filterMap_eq_nil_iff]
    intro i hi
    have := hb i hi
    unfold isTermDerivedOp at this
    unfold labelOf
    cases hop : i.operation <;> simp_all
  have h2 : (ir.termInstrs b).filterMap labelOf = [] := by
    unfold ir.termInstrs
    cases b.terminator <;> simp [labelOf] <;> split <;> simp [labelOf]
  rw [h1, h2]
  by_cases he : b.id ≠ entry <;> simp [he, labelOf]

theorem flattenBlock_ret (entry : Nat) (b : ir.BasicBlock)
    (hb : ∀ i ∈ b.instructions, isTermDerivedOp i.operation = false) :
    (ir.flattenBlock entry b).countP isRetI
      = if isRetT b.terminator then 1 else 0 := by
  unfold ir.flattenBlock
  rw [List.countP_append, List.countP_append]
  have h1 : b.instructions.countP isRetI = 0 := by
    rw [List.countP_eq_zero]
    intro i hi
    have := hb i hi
    unfold isTermDerivedOp at this
    unfold isRetI
    cases hop : i.operation <;> simp_all
  have h2 : (if b.id ≠ entry then
      [ir.Instruction.mk (.label (ir.labelName b.id)) Option.none []] else
        []).countP isRetI = 0 := by
    split <;> simp [isRetI]
  rw [h1, h2]
  unfold ir.termInstrs isRetT
  cases b.terminator <;> simp [isRetI] <;> split <;> simp [isRetI]

theorem flattenBlock_bif (entry : Nat) (b : ir.BasicBlock)
    (hb : ∀ i ∈ b.instructions, isTermDerivedOp i.operation = false) :
    (ir.flattenBlock entry b).countP isBranchIfFalseI
      = if isBranchT b.terminator then 1 else 0 := by
  unfold ir.flattenBlock
  rw [List.countP_append, List.countP_append]
  have h1 : b.instructions.countP isBranchIfFalseI = 0 := by
    rw [List.countP_eq_zero]
    intro i hi
    have := hb i hi
    unfold isTermDerivedOp at this
    unfold isBranchIfFalseI
    cases hop : i.operation <;> simp_all
  have h2 : (if b.id ≠ entry then
      [ir.Instruction.mk (.label (ir.labelName b.id)) Option.none []] else
        []).countP isBranchIfFalseI = 0 := by
    split <;> simp [isBranchIfFalseI]
  rw [h1, h2]
  unfold ir.termInstrs isBranchT
  cases b.terminator <;> simp [isBranchIfFalseI] <;> split <;> simp [isBranchIfFalseI]

theorem flattenBlock_jump (entry : Nat) (b : ir.BasicBlock)
    (hb : ∀ i ∈ b.instructions, isTermDerivedOp i.operation = false) :
    (ir.flattenBlock entry b).countP isJumpI
      = (if isJumpT b.terminator then 1 else 0)
        + (if branchExtraJump b then 1 else 0)
        + (if fallJump b then 1 else 0) := by
  unfold ir.flattenBlock
  rw [List.countP_append, List.countP_append]
  have h1 : b.instructions.countP isJumpI = 0 := by
    rw [List.countP_eq_zero]
    intro i hi
    have := hb i hi
    unfold isTermDerivedOp at this
    unfold isJumpI
    cases hop : i.operation <;> simp_all
  have h2 : (if b.id ≠ entry then
      [ir.Instruction.mk (.label (ir.labelName b.id)) Option.none []] else
        []).countP isJumpI = 0 := by
    split <;> simp [isJumpI]
  rw [h1, h2]
  unfold ir.termInstrs isJumpT branchExtraJump fallJump
  cases b.terminator <;> simp [isJumpI] <;> split <;> simp [isJumpI]

theorem flatten_shape_aux (entry : Nat) (l : List ir.BasicBlock)
    (hclean : ∀ b ∈ l, ∀ i ∈ b.instructions, isTermDerivedOp i.operation = false) :
    ((l.flatMap (ir.flattenBlock entry)).filterMap labelOf
        = (l.filter (fun b => b.id ≠ entry)).map (fun b => ir.labelName b.id)) ∧
    (l.flatMap (ir.flattenBlock entry)).countP isRetI
        = l.countP (fun b => isRetT b.terminator) ∧
    (l.flatMap (ir.flattenBlock entry)).countP isBranchIfFalseI
        = l.countP (fun b => isBranchT b.terminator) ∧
    (l.flatMap (ir.flattenBlock entry)).countP isJumpI
        = l.countP (fun b => isJumpT b.terminator)
          + l.countP branchExtraJump + l.countP fallJump := by
  induction l with
  | nil => simp
  | cons b rest ih =>
    have hb := hclean b (List.mem_cons_self _ _)
    have hrest := fun b' hb' => hclean b' (List.mem_cons_of_mem _ hb')
    obtain ⟨ih1, ih2, ih3, ih4⟩ := ih hrest
    rw [List.flatMap_cons]
    refine ⟨?_, ?_, ?_, ?_⟩
    · rw [List.filterMap_append, flattenBlock_labels entry b hb, ih1,
        List.filter_cons]
      by_cases he : b.id ≠ entry <;> simp [he]
    · rw [List.countP_append, flattenBlock_ret entry b hb, ih2,
        List.countP_cons]
      by_cases hr : isRetT b.terminator <;> simp [hr] <;> omega
    · rw [List.countP_append, flattenBlock_bif entry b hb, ih3,
        List.countP_cons]
      by_cases hr : isBranchT b.terminator <;> simp [hr] <;> omega
    · rw [List.countP_append, flattenBlock_jump entry b hb, ih4,
        List.countP_cons, List.countP_cons, List.countP_cons]
      by_cases h1 : isJumpT b.terminator <;>
        by_cases h2 : branchExtraJump b <;>
        by_cases h3 : fallJump b <;>
        simp [h1, h2, h3] <;> omega

/-- C5 (amended): for a CFG whose block bodies contain no synthetic ops
(true of all lowered CFGs), flattening emits exactly one `.LBB{id}` label
per non-entry block (in block order), exactly one `Ret` per `Return`
terminator and one `BranchIfFalse` per `Branch` terminator — but the
number of emitted `Jump`s is the number of `Jump` terminators plus one
per `Branch` whose then-successor is not the next block plus one per
`Fallthrough` whose target is not the next block: a `Fallthrough` to the
next block emits nothing and a `Branch` may emit two instructions. -/
theorem C5_flatten_shape (cfg : ir.CFG)
    (hclean : ∀ b ∈ cfg.blocks, ∀ i ∈ b.instructions,
      isTermDerivedOp i.operation = false) :
    (cfg.flatten.filterMap labelOf
        = (cfg.blocks.filter (fun b => b.id ≠ cfg.entry)).map
            (fun b => ir.labelName b.id)) ∧
    cfg.flatten.countP isRetI = cfg.blocks.countP (fun b => isRetT b.terminator) ∧
    cfg.flatten.countP isBranchIfFalseI
        = cfg.blocks.countP (fun b => isBranchT b.terminator) ∧
    cfg.flatten.countP isJumpI
        = cfg.blocks.countP (fun b => isJumpT b.terminator)
          + cfg.blocks.countP branchExtraJump + cfg.blocks.countP fallJump :=
  flatten_shape_aux cfg.entry cfg.blocks hclean

/-- A two-block CFG whose entry falls through to the very next block. -/
def cfgC5 : ir.CFG :=
  ⟨[⟨0, [], [], .fallthrough 1⟩, ⟨1, [], [], .ret Option.none⟩], 0⟩

/-- C5 (counterexample): `cfgC5` has exactly one `Fallthrough` terminator
yet its flattening contains no `Jump` instruction at all, refuting "one
Jump for Fallthrough" (similarly a branch with a non-adjacent
then-successor yields two terminator-derived instructions). -/
theorem C5_flatten_shape_counterexample :
    cfgC5.blocks.countP (fun b => isFallT b.terminator) = 1 ∧
      (ir.CFG.flatten cfgC5).countP isJumpI = 0 := by
  constructor
  · rfl
  · rfl

theorem C5_flatten_shape_witness :
    (∀ b ∈ cfgC5.blocks, ∀ i ∈ b.instructions, isTermDerivedOp i.operation = false) ∧
    ((ir.CFG.flatten cfgC5).filterMap labelOf = [ir.labelName 1] ∧
      (ir.CFG.flatten cfgC5).countP isRetI = 1 ∧
      (ir.CFG.flatten cfgC5).countP isBranchIfFalseI = 0 ∧
      (ir.CFG.flatten cfgC5).countP isJumpI = 0 + 0 + 0) :=
  ⟨by decide, C5_flatten_shape cfgC5 (by decide)⟩

/-- C6 (amended): the semantic check returns the empty result exactly
when no error was accumulated; the error list is empty exactly when
there is no duplicate-function error and every function checks clean;
and every function's full error list appears contiguously (in statement
order) inside the reported list — all errors are accumulated in one
pass with no short-circuiting.  (The overall report order is: all
duplicate-function errors first, then per-function errors in source
order — not globally source-ordered; see the counterexample.) -/
theorem C6_semantic_accumulation (p : ast.Program) :
    (semantic.semCheck p = .ok () ↔ semantic.semErrors p = []) ∧
    (semantic.semErrors p = [] ↔
      (semantic.dupErrors p.functions = [] ∧
        ∀ f ∈ p.functions,
          semantic.checkFunction (semantic.collectSigs p.functions) f = [])) ∧
    (∀ pre f post, p.functions = pre ++ f :: post →
      ∃ s t, semantic.semErrors p
        = s ++ semantic.checkFunction (semantic.collectSigs p.functions) f ++ t) := by
  refine ⟨?_, ?_, ?_⟩
  · unfold semantic.semCheck
    split
    · simp_all
    · simp_all
  · unfold semantic.semErrors
    simp [List.append_eq_nil, List.flatten_eq_nil_iff, List.mem_map]
  · intro pre f post hsplit
    refine ⟨semantic.dupErrors p.functions
        ++ (pre.map (semantic.checkFunction (semantic.collectSigs p.functions))).flatten,
      (post.map (semantic.checkFunction (semantic.collectSigs p.functions))).flatten, ?_⟩
    unfold semantic.semErrors
    rw [hsplit]
    rw [List.map_append, List.map_cons, List.flatten_append, List.flatten_cons]
    simp [List.append_assoc]

/-- Counterexample program: function `a` uses the undefined variable `x`;
functions two and three are both named `b`. -/
def progC6 : ast.Program :=
  ⟨[], [⟨"a", [], Option.none, [.exprS (.var "x")]⟩,
        ⟨"b", [], Option.none, []⟩,
        ⟨"b", [], Option.none, []⟩]⟩

/-- C6 (counterexample): the reported list places the duplicate-function
error (caused by the third function) before the undefined-variable error
(caused by the first function), so reporting does not follow source
order. -/
theorem C6_semantic_accumulation_counterexample :
    semantic.semErrors progC6
      = [.duplicateFunction "b", .undefinedVariable "a" "x"] ∧
    ([semantic.SemanticError.duplicateFunction "b",
        .undefinedVariable "a" "x"]
      ≠ [.undefinedVariable "a" "x", .duplicateFunction "b"]) := by
  constructor
  · rfl
  · decide

theorem C6_semantic_accumulation_witness :
    ∃ s t, semantic.semErrors progC6
      = s ++ semantic.checkFunction (semantic.collectSigs progC6.functions)
          ⟨"a", [], Option.none, [.exprS (.var "x")]⟩ ++ t :=
  (C6_semantic_accumulation progC6).2.2 []
    ⟨"a", [], Option.none, [.exprS (.var "x")]⟩
    [⟨"b", [], Option.none, []⟩, ⟨"b", [], Option.none, []⟩] rfl

/-- Reduction of `verifyFunction` on an unsigned (`Orchestration`)
function. -/
theorem verifyFunction_orchestration (func : ast.Function) (cfg : ir.CFG)
    (peripherals : List ast.Peripheral) (signatures : SigMap)
    (hsig : func.signature = Option.none) :
    verifyFunction func cfg peripherals signatures =
      match verifyCfg cfg (initStateEnv peripherals) signatures func.name with
      | .error e => .error e
      | .ok _ => .ok () := by
  unfold verifyFunction classifyFunction
  rw [hsig]
  rfl

theorem checkGo_ok_iff (peripherals : List ast.Peripheral) (signatures : SigMap) :
    ∀ (funcs : List ast.Function) (cfgs : List ir.CFG),
      funcs.length = cfgs.length →
      (checkGo peripherals signatures funcs cfgs = .ok () ↔
        ∀ fc ∈ funcs.zip cfgs,
          verifyFunction fc.1 fc.2 peripherals signatures = .ok ()) := by
  intro funcs
  induction funcs with
  | nil =>
    intro cfgs hlen
    cases cfgs with
    | nil => simp [checkGo]
    | cons c cs => cases hlen
  | cons f fs ih =>
    intro cfgs hlen
    cases cfgs with
    | nil => cases hlen
    | cons c cs =>
      rw [List.zip_cons_cons]
      unfold checkGo
      cases hr : verifyFunction f c peripherals signatures with
      | error e =>
        constructor
        · intro h; cases h
        · intro h
          have := h (f, c) (List.mem_cons_self _ _)
          rw [hr] at this
          cases this
      | ok u =>
        cases u
        rw [ih cs (by simpa using hlen)]
        constructor
        · intro h fc hfc
          rcases List.mem_cons.mp hfc with heq | hmem
          · subst heq; exact hr
          · exact h fc hmem
        · intro h fc hfc
          exact h fc (List.mem_cons_of_mem _ hfc)

theorem checkGo_first_error (peripherals : List ast.Peripheral) (signatures : SigMap) :
    ∀ (funcs : List ast.Function) (cfgs : List ir.CFG)
      (pre : List (ast.Function × ir.CFG)) (f : ast.Function) (cfg : ir.CFG)
      (post : List (ast.Function × ir.CFG)) (e : TypestateError),
      funcs.zip cfgs = pre ++ (f, cfg) :: post →
      (∀ fc ∈ pre, verifyFunction fc.1 fc.2 peripherals signatures = .ok ()) →
      verifyFunction f cfg peripherals signatures = .error e →
      checkGo peripherals signatures funcs cfgs
        = .error (renderTypestateError e) := by
  intro funcs
  induction funcs with
  | nil =>
    intro cfgs pre f cfg post e hzip hok herr
    rw [List.zip_nil_left] at hzip
    cases pre <;> cases hzip
  | cons f0 fs ih =>
    intro cfgs pre f cfg post e hzip hok herr
    cases cfgs with
    | nil =>
      rw [List.zip_nil_right] at hzip
      cases pre <;> cases hzip
    | cons c0 cs =>
      rw [List.zip_cons_cons] at hzip
      cases pre with
      | nil =>
        rw [List.nil_append] at hzip
        obtain ⟨hfc, -⟩ := List.cons.inj hzip
        cases hfc
        unfold checkGo
        rw [herr]
      | cons q pre2 =>
        rw [List.cons_append] at hzip
        obtain ⟨hq, htail⟩ := List.cons.inj hzip
        unfold checkGo
        have hq0 : verifyFunction f0 c0 peripherals signatures = .ok () := by
          have := hok q (List.mem_cons_self _ _)
          rw [← hq] at this
          exact this
        rw [hq0]
        exact ih cs pre2 f cfg post e htail
          (fun fc hfc => hok fc (List.mem_cons_of_mem _ hfc)) herr

/-- C1 (amended): the typestate driver accepts a program exactly when
every function verifies, so a program containing any failing function is
rejected; but verification stops at the first failing function (in
program order): the rendered error of that function's first failure is
the entire output, and functions after it are never examined (the
counterexample shows a later function's error going unreported). -/
theorem C1_first_failure_stops (program : ast.Program)
    (lowered : List (String × ir.CFG))
    (hlen : lowered.length = program.functions.length) :
    (check program lowered = .ok () ↔
      ∀ fc ∈ program.functions.zip (lowered.map Prod.snd),
        verifyFunction fc.1 fc.2 program.peripherals (buildSignatureMap program)
          = .ok ()) ∧
    (∀ pre f cfg post e,
      program.functions.zip (lowered.map Prod.snd) = pre ++ (f, cfg) :: post →
      (∀ fc ∈ pre, verifyFunction fc.1 fc.2 program.peripherals
        (buildSignatureMap program) = .ok ()) →
      verifyFunction f cfg program.peripherals (buildSignatureMap program)
        = .error e →
      check program lowered = .error (renderTypestateError e)) := by
  constructor
  · unfold check
    exact checkGo_ok_iff program.peripherals (buildSignatureMap program)
      program.functions (lowered.map Prod.snd) (by simp [hlen])
  · intro pre f cfg post e hzip hok herr
    unfold check
    exact checkGo_first_error program.peripherals (buildSignatureMap program)
      program.functions (lowered.map Prod.snd) pre f cfg post e hzip hok herr

def peripheralsC1 : List ast.Peripheral :=
  [⟨"T", Option.none, ["Off", "On"], "Off", []⟩]

def gfun (name : String) : ast.Function :=
  ⟨name, [], some ⟨"T", "On", "On"⟩, []⟩

def ffun (name callee : String) : ast.Function :=
  ⟨name, [], Option.none, [.exprS (.fnCall callee [])]⟩

def leafCfg : ir.CFG := ⟨[⟨0, [], [], .ret Option.none⟩], 0⟩

def callCfg (callee : String) : ir.CFG :=
  ⟨[⟨0, [.peripheralDriverCall callee "T" "On" "On"], [], .ret Option.none⟩], 0⟩

/-- A program whose third and fourth functions each perform an invalid
transition (`T` is `Off` but both `g0` and `g1` require `On`). -/
def progC1 : ast.Program :=
  ⟨peripheralsC1, [gfun "g0", gfun "g1", ffun "f0" "g0", ffun "f1" "g1"]⟩

def irC1 : List (String × ir.CFG) :=
  [("g0", leafCfg), ("g1", leafCfg), ("f0", callCfg "g0"), ("f1", callCfg "g1")]

theorem verifyFunction_callCfg_fails (name callee : String) :
    verifyFunction (ffun name callee) (callCfg callee) peripheralsC1
      (buildSignatureMap progC1)
      = .error (.invalidTransition callee name "T" "On" "Off") := by
  rw [verifyFunction_orchestration (ffun name callee) (callCfg callee)
    peripheralsC1 (buildSignatureMap progC1) rfl]
  have hwalk : verifyCfg (callCfg callee) (initStateEnv peripheralsC1)
      (buildSignatureMap progC1) (ffun name callee).name
      = .error (.invalidTransition callee name "T" "On" "Off") := by
    unfold verifyCfg
    rw [verifyBlockRec_eq]
    simp [callCfg, ffun, ir.CFG.block, verifyStatements, verifyStatement,
      initStateEnv, peripheralsC1, alookup, ainsert]
  rw [hwalk]

/-- C1 (counterexample): on `progC1` the driver reports only the first
failing function's error (`f0`); the fourth function `f1` also fails,
with a distinct rendered error, but that error is not surfaced — `f1`
was never verified. -/
theorem C1_first_failure_stops_counterexample :
    check progC1 irC1
      = .error (renderTypestateError (.invalidTransition "g0" "f0" "T" "On" "Off")) ∧
    verifyFunction (ffun "f1" "g1") (callCfg "g1") progC1.peripherals
      (buildSignatureMap progC1)
      = .error (.invalidTransition "g1" "f1" "T" "On" "Off") ∧
    renderTypestateError (.invalidTransition "g0" "f0" "T" "On" "Off")
      ≠ renderTypestateError (.invalidTransition "g1" "f1" "T" "On" "Off") := by
  refine ⟨?_, verifyFunction_callCfg_fails "f1" "g1", by decide⟩
  apply checkGo_first_error progC1.peripherals (buildSignatureMap progC1)
    progC1.functions (irC1.map Prod.snd)
    [(gfun "g0", leafCfg), (gfun "g1", leafCfg)]
    (ffun "f0" "g0") (callCfg "g0")
    [(ffun "f1" "g1", callCfg "g1")]
    (.invalidTransition "g0" "f0" "T" "On" "Off")
    rfl
  · intro fc hfc
    rcases List.mem_cons.mp hfc with heq | hfc2
    · subst heq; rfl
    · rcases List.mem_cons.mp hfc2 with heq | hfc3
      · subst heq; rfl
      · cases hfc3
  · exact verifyFunction_callCfg_fails "f0" "g0"

def progW1 : ast.Program :=
  ⟨peripheralsC1, [gfun "g0", ffun "f0" "g0"]⟩

def irW1 : List (String × ir.CFG) :=
  [("g0", leafCfg), ("f0", callCfg "g0")]

theorem C1_first_failure_stops_witness :
    check progW1 irW1
      = .error (renderTypestateError (.invalidTransition "g0" "f0" "T" "On" "Off")) := by
  apply (C1_first_failure_stops progW1 irW1 rfl).2
    [(gfun "g0", leafCfg)] (ffun "f0" "g0") (callCfg "g0") [] _ rfl
  · intro fc hfc
    rcases List.mem_cons.mp hfc with heq | hfc2
    · subst heq; rfl
    · cases hfc2
  · show verifyFunction (ffun "f0" "g0") (callCfg "g0") peripheralsC1
      (buildSignatureMap progW1) = _
    rw [verifyFunction_orchestration (ffun "f0" "g0") (callCfg "g0")
      peripheralsC1 (buildSignatureMap progW1) rfl]
    have hwalk : verifyCfg (callCfg "g0") (initStateEnv peripheralsC1)
        (buildSignatureMap progW1) (ffun "f0" "g0").name
        = .error (.invalidTransition "g0" "f0" "T" "On" "Off") := by
      unfold verifyCfg
      rw [verifyBlockRec_eq]
      simp [callCfg, ffun, ir.CFG.block, verifyStatements, verifyStatement,
        initStateEnv, peripheralsC1, alookup, ainsert]
    rw [hwalk]

end claims

namespace backendproofs

open backend

/-- Fold-insert lookup is unchanged for keys not inserted. -/
theorem alookup_foldl_ainsert_notmem (g : ir.BasicBlock → BlockLiveness) :
    ∀ (l : List ir.BasicBlock) (acc : LivenessResult) (k : Nat),
      (∀ blk ∈ l, blk.id ≠ k) →
      alookup (l.foldl (fun r blk => ainsert r blk.id (g blk)) acc) k
        = alookup acc k := by
  intro l
  induction l with
  | nil => intro acc k h; rfl
  | cons hd tl ih =>
    intro acc k h
    rw [List.foldl_cons]
    rw [ih (ainsert acc hd.id (g hd)) k
      (fun blk hb => h blk (List.mem_cons_of_mem _ hb))]
    exact alookup_ainsert_ne acc hd.id k (g hd) (h hd (List.mem_cons_self _ _))

theorem alookup_foldl_ainsert_mem (g : ir.BasicBlock → BlockLiveness) :
    ∀ (l : List ir.BasicBlock) (acc : LivenessResult),
      (l.map ir.BasicBlock.id).Nodup →
      ∀ b ∈ l, alookup (l.foldl (fun r blk => ainsert r blk.id (g blk)) acc) b.id
        = some (g b) := by
  intro l
  induction l with
  | nil => intro acc _ b hb; cases hb
  | cons hd tl ih =>
    intro acc hnd b hb
    rw [List.map_cons, List.nodup_cons] at hnd
    rw [List.foldl_cons]
    rcases List.mem_cons.mp hb with heq | hmem
    · subst heq
      rw [alookup_foldl_ainsert_notmem g tl (ainsert acc b.id (g b)) b.id
        (fun blk hblk hc => hnd.1 (hc ▸ List.mem_map_of_mem ir.BasicBlock.id hblk))]
      exact alookup_ainsert_self acc b.id (g b)
    · exact ih (ainsert acc hd.id (g hd)) hnd.2 b hmem

/-- Plain reduction equation for `passStep`. -/
theorem passStep_eq (result : LivenessResult) (ch : Bool) (b : ir.BasicBlock) :
    passStep (result, ch) b =
      match alookup result b.id with
      | Option.none => (result, ch)
      | some l =>
          if l.use_set ∪ (succLiveUnion result b \ l.def_set) ≠ l.live_in
              ∨ succLiveUnion result b ≠ l.live_out then
            (ainsert result b.id
              ⟨l.use_set ∪ (succLiveUnion result b \ l.def_set),
                succLiveUnion result b, l.use_set, l.def_set⟩, true)
          else (result, ch) := rfl

/-- The invariant carried through the fixed-point loop: every block has
an entry whose `use`/`def` sets are the block's. -/
def resInv (cfg : ir.CFG) (result : LivenessResult) : Prop :=
  ∀ b ∈ cfg.blocks, ∃ L, alookup result b.id = some L ∧
    L.use_set = (useDefOf b).1 ∧ L.def_set = (useDefOf b).2

theorem resInv_init (cfg : ir.CFG)
    (hnodup : (cfg.blocks.map ir.BasicBlock.id).Nodup) :
    resInv cfg (initResult cfg) := by
  intro b hb
  refine ⟨⟨∅, ∅, (useDefOf b).1, (useDefOf b).2⟩, ?_, rfl, rfl⟩
  unfold initResult
  exact alookup_foldl_ainsert_mem
    (fun blk => ⟨∅, ∅, (useDefOf blk).1, (useDefOf blk).2⟩) cfg.blocks [] hnodup b hb

theorem resInv_passStep (cfg : ir.CFG)
    (hnodup : (cfg.blocks.map ir.BasicBlock.id).Nodup)
    (result : LivenessResult) (ch : Bool) (b0 : ir.BasicBlock)
    (hb0 : b0 ∈ cfg.blocks) (hinv : resInv cfg result) :
    resInv cfg (passStep (result, ch) b0).1 := by
  rw [passStep_eq]
  split
  · exact hinv
  next l hl =>
    split
    · show resInv cfg (ainsert result b0.id
        ⟨l.use_set ∪ (succLiveUnion result b0 \ l.def_set),
          succLiveUnion result b0, l.use_set, l.def_set⟩)
      intro b hb
      by_cases hid : b.id = b0.id
      · have hbb : b = b0 := List.inj_on_of_nodup_map hnodup hb hb0 hid
        subst hbb
        obtain ⟨L, hL, hu, hd⟩ := hinv b hb
        rw [hl] at hL
        cases hL
        refine ⟨⟨l.use_set ∪ (succLiveUnion result b \ l.def_set),
          succLiveUnion result b, l.use_set, l.def_set⟩, ?_, hu, hd⟩
        exact alookup_ainsert_self result b.id _
      · obtain ⟨L, hL, hu, hd⟩ := hinv b hb
        refine ⟨L, ?_, hu, hd⟩
        rw [alookup_ainsert_ne _ _ _ _ (fun hc => hid hc.symm)]
        exact hL
    · exact hinv

theorem resInv_foldl (cfg : ir.CFG)
    (hnodup : (cfg.blocks.map ir.BasicBlock.id).Nodup) :
    ∀ (l : List ir.BasicBlock) (acc : LivenessResult × Bool),
      (∀ b ∈ l, b ∈ cfg.blocks) → resInv cfg acc.1 →
      resInv cfg (l.foldl passStep acc).1 := by
  intro l
  induction l with
  | nil => intro acc _ h; exact h
  | cons b0 tl ih =>
    intro acc hmem hinv
    rw [List.foldl_cons]
    have hstep : resInv cfg (passStep acc b0).1 := by
      obtain ⟨r, c⟩ := acc
      exact resInv_passStep cfg hnodup r c b0 (hmem b0 (List.mem_cons_self _ _)) hinv
    exact ih (passStep acc b0) (fun b hb => hmem b (List.mem_cons_of_mem _ hb)) hstep

theorem resInv_loop (cfg : ir.CFG)
    (hnodup : (cfg.blocks.map ir.BasicBlock.id).Nodup) :
    ∀ (fuel : Nat) (r res : LivenessResult),
      analyseLoop cfg fuel r = some res → resInv cfg r → resInv cfg res := by
  intro fuel
  induction fuel with
  | zero => intro r res h; cases h
  | succ n ih =>
    intro r res h hinv
    unfold analyseLoop at h
    have hpass : resInv cfg (analysePass cfg r).1 :=
      resInv_foldl cfg hnodup cfg.blocks.reverse (r, false)
        (fun b hb => List.mem_reverse.mp hb) hinv
    cases hp : analysePass cfg r with
    | mk r2 changed =>
      rw [hp] at h hpass
      cases changed with
      | true => exact ih r2 res h hpass
      | false => cases h; exact hpass

/-- The per-block stability condition: the stored sets satisfy the
dataflow equations relative to `result`. -/
def stepEqOK (result : LivenessResult) (b : ir.BasicBlock) : Prop :=
  ∀ L, alookup result b.id = some L →
    L.live_in = L.use_set ∪ (succLiveUnion result b \ L.def_set) ∧
    L.live_out = succLiveUnion result b

theorem passStep_stable (result : LivenessResult) (ch : Bool) (b : ir.BasicBlock)
    (result2 : LivenessResult)
    (h : passStep (result, ch) b = (result2, false)) :
    result2 = result ∧ ch = false ∧ stepEqOK result b := by
  rw [passStep_eq] at h
  split at h
  next hl =>
    cases h
    refine ⟨rfl, rfl, ?_⟩
    intro L hL
    rw [hl] at hL
    cases hL
  next l hl =>
    split at h
    · cases h
    next hcond =>
      cases h
      push_neg at hcond
      refine ⟨rfl, rfl, ?_⟩
      intro L hL
      rw [hl] at hL
      cases hL
      exact ⟨hcond.1.symm, hcond.2.symm⟩

theorem passStep_changed (acc : LivenessResult × Bool) (b : ir.BasicBlock)
    (h : acc.2 = true) : (passStep acc b).2 = true := by
  obtain ⟨r, c⟩ := acc
  rw [passStep_eq]
  split
  · exact h
  · split
    · rfl
    · exact h

theorem foldl_pass_stable :
    ∀ (l : List ir.BasicBlock) (acc : LivenessResult × Bool) (res2 : LivenessResult),
      l.foldl passStep acc = (res2, false) →
      res2 = acc.1 ∧ acc.2 = false ∧ ∀ b ∈ l, stepEqOK acc.1 b := by
  intro l
  induction l with
  | nil =>
    intro acc res2 h
    cases h
    exact ⟨rfl, rfl, fun b hb => absurd hb (List.not_mem_nil b)⟩
  | cons b tl ih =>
    intro acc res2 h
    rw [List.foldl_cons] at h
    cases hps : passStep acc b with
    | mk rA cA =>
      rw [hps] at h
      obtain ⟨h1, h2, h3⟩ := ih (rA, cA) res2 h
      obtain ⟨r, c⟩ := acc
      have hres : res2 = rA := h1
      have hcA : cA = false := h2
      subst hcA
      obtain ⟨hr, hc, hstep⟩ := passStep_stable r c b rA hps
      subst hr
      refine ⟨hres, hc, ?_⟩
      intro b2 hb2
      rcases List.mem_cons.mp hb2 with heq | hmem
      · subst heq; exact hstep
      · exact h3 b2 hmem

theorem analyseLoop_stable (cfg : ir.CFG) :
    ∀ (fuel : Nat) (r res : LivenessResult),
      analyseLoop cfg fuel r = some res →
      ∀ b ∈ cfg.blocks, stepEqOK res b := by
  intro fuel
  induction fuel with
  | zero => intro r res h; cases h
  | succ n ih =>
    intro r res h
    unfold analyseLoop at h
    cases hp : analysePass cfg r with
    | mk r2 changed =>
      rw [hp] at h
      cases changed with
      | true => exact ih r2 res h
      | false =>
        cases h
        unfold analysePass at hp
        obtain ⟨h1, _, h3⟩ := foldl_pass_stable cfg.blocks.reverse (r, false) res hp
        intro b hb
        rw [h1]
        exact h3 b (List.mem_reverse.mpr hb)

end backendproofs

namespace keyproofs

/-- Key presence is preserved from `m` to `m2`. -/
def keyKeeps {κ α : Type} [DecidableEq κ] (m m2 : List (κ × α)) : Prop :=
  ∀ k, (alookup m k).isSome → (alookup m2 k).isSome

theorem keyKeeps_refl {κ α : Type} [DecidableEq κ] (m : List (κ × α)) :
    keyKeeps m m := fun _ h => h

theorem keyKeeps_trans {κ α : Type} [DecidableEq κ] {a b c : List (κ × α)}
    (h1 : keyKeeps a b) (h2 : keyKeeps b c) : keyKeeps a c :=
  fun k h => h2 k (h1 k h)

theorem keyKeeps_ainsert {κ α : Type} [DecidableEq κ] (m : List (κ × α)) (k : κ) (v : α) :
    keyKeeps m (ainsert m k v) := by
  intro k2 h
  rw [alookup_ainsert]
  by_cases hk : k = k2 <;> simp [hk, h]

theorem alookup_mem {κ α : Type} [DecidableEq κ] :
    ∀ (m : List (κ × α)) (k : κ) (v : α), alookup m k = some v → (k, v) ∈ m := by
  intro m
  induction m with
  | nil => intro k v h; cases h
  | cons kv rest ih =>
    intro k v h
    obtain ⟨k0, v0⟩ := kv
    unfold alookup at h
    split at h
    · cases h
      next heq => exact heq ▸ List.mem_cons_self _ _
    · exact List.mem_cons_of_mem _ (ih k v h)

theorem mem_ainsert {κ α : Type} [DecidableEq κ] :
    ∀ (m : List (κ × α)) (k : κ) (v : α) (kv : κ × α),
      kv ∈ ainsert m k v → kv = (k, v) ∨ kv ∈ m := by
  intro m
  induction m with
  | nil =>
    intro k v kv h
    rcases List.mem_singleton.mp h with heq
    exact Or.inl heq
  | cons kv0 rest ih =>
    intro k v kv h
    obtain ⟨k0, v0⟩ := kv0
    unfold ainsert at h
    split at h
    · rcases List.mem_cons.mp h with heq | hmem
      · exact Or.inl heq
      · exact Or.inr (List.mem_cons_of_mem _ hmem)
    · rcases List.mem_cons.mp h with heq | hmem
      · exact Or.inr (heq ▸ List.mem_cons_self _ _)
      · rcases ih k v kv hmem with h1 | h2
        · exact Or.inl h1
        · exact Or.inr (List.mem_cons_of_mem _ h2)

end keyproofs

namespace backendproofs2

open backend keyproofs

/-- Lookup after `entry().and_modify(f).or_insert(d)`. -/
theorem alookup_ientry (m : List (Nat × Nat × Nat)) (k : Nat)
    (f : Nat × Nat → Nat × Nat) (d : Nat × Nat) (k2 : Nat) :
    alookup (ientry m k f d) k2 =
      if k = k2 then
        some (match alookup m k with
          | some v => f v
          | Option.none => d)
      else alookup m k2 := by
  induction m with
  | nil =>
    by_cases h : k = k2 <;> simp [ientry, alookup, h]
  | cons kv rest ih =>
    obtain ⟨k0, v0⟩ := kv
    unfold ientry
    by_cases hk : k0 = k
    · subst hk
      by_cases h2 : k0 = k2 <;> simp [alookup, h2]
    · by_cases h2 : k0 = k2
      · subst h2
        have hkk : ¬ k = k0 := fun hc => hk hc.symm
        simp [alookup, hk, hkk]
      · simp [alookup, hk, h2, ih]

theorem alookup_ientry_self (m : List (Nat × Nat × Nat)) (k : Nat)
    (f : Nat × Nat → Nat × Nat) (d : Nat × Nat) :
    (alookup (ientry m k f d) k).isSome = true := by
  rw [alookup_ientry]
  simp

theorem ientry_keeps (m : List (Nat × Nat × Nat)) (k : Nat)
    (f : Nat × Nat → Nat × Nat) (d : Nat × Nat) :
    keyKeeps m (ientry m k f d) := by
  intro k2 h
  rw [alookup_ientry]
  by_cases hk : k = k2 <;> simp [hk, h]

theorem ientry_fold_keeps (upd : Nat → Nat × Nat → Nat × Nat)
    (dflt : Nat → Nat × Nat) :
    ∀ (l : List Nat) (m : List (Nat × Nat × Nat)),
      keyKeeps m (l.foldl (fun acc v => ientry acc v (upd v) (dflt v)) m) := by
  intro l
  induction l with
  | nil => intro m; exact keyKeeps_refl m
  | cons v vs ih =>
    intro m
    rw [List.foldl_cons]
    exact keyKeeps_trans (ientry_keeps m v (upd v) (dflt v)) (ih _)

theorem ientry_fold_mem (upd : Nat → Nat × Nat → Nat × Nat)
    (dflt : Nat → Nat × Nat) :
    ∀ (l : List Nat) (m : List (Nat × Nat × Nat)) (r : Nat), r ∈ l →
      (alookup (l.foldl (fun acc v => ientry acc v (upd v) (dflt v)) m) r).isSome
        = true := by
  intro l
  induction l with
  | nil => intro m r h; cases h
  | cons v vs ih =>
    intro m r h
    rw [List.foldl_cons]
    rcases List.mem_cons.mp h with heq | hmem
    · subst heq
      exact ientry_fold_keeps upd dflt vs _ r (alookup_ientry_self m r _ _)
    · exact ih _ r hmem

theorem instrStep_keeps (acc : List (Nat × Nat × Nat) × Nat) (i : ir.Instruction) :
    keyKeeps acc.1 (instrStep acc i).1 := by
  obtain ⟨m, pp⟩ := acc
  unfold instrStep
  refine keyKeeps_trans (b := match i.destination with
    | some dest => ientry m dest (fun se => (se.1, max se.2 pp)) (pp, pp)
    | Option.none => m) ?_ ?_
  · cases i.destination with
    | none => exact keyKeeps_refl m
    | some dest => exact ientry_keeps m dest _ _
  · exact ientry_fold_keeps (fun _ se => (se.1, max se.2 pp)) (fun _ => (pp, pp))
      i.args _

theorem instrFold_keeps :
    ∀ (l : List ir.Instruction) (acc : List (Nat × Nat × Nat) × Nat),
      keyKeeps acc.1 (l.foldl instrStep acc).1 := by
  intro l
  induction l with
  | nil => intro acc; exact keyKeeps_refl acc.1
  | cons i rest ih =>
    intro acc
    rw [List.foldl_cons]
    exact keyKeeps_trans (instrStep_keeps acc i) (ih (instrStep acc i))

theorem instrStep_mem (acc : List (Nat × Nat × Nat) × Nat) (i : ir.Instruction)
    (r : Nat) (h : i.destination = some r ∨ r ∈ i.args) :
    (alookup (instrStep acc i).1 r).isSome = true := by
  obtain ⟨m, pp⟩ := acc
  unfold instrStep
  rcases h with hdest | harg
  · rw [hdest]
    exact ientry_fold_keeps (fun _ se => (se.1, max se.2 pp)) (fun _ => (pp, pp))
      i.args _ r (alookup_ientry_self m r _ _)
  · exact ientry_fold_mem (fun _ se => (se.1, max se.2 pp)) (fun _ => (pp, pp))
      i.args _ r harg

theorem instrFold_mem :
    ∀ (l : List ir.Instruction) (acc : List (Nat × Nat × Nat) × Nat) (r : Nat),
      (∃ i ∈ l, i.destination = some r ∨ r ∈ i.args) →
      (alookup (l.foldl instrStep acc).1 r).isSome = true := by
  intro l
  induction l with
  | nil =>
    intro acc r h
    obtain ⟨i, hi, _⟩ := h
    cases hi
  | cons i rest ih =>
    intro acc r h
    obtain ⟨i2, hi2, hr⟩ := h
    rw [List.foldl_cons]
    rcases List.mem_cons.mp hi2 with heq | hmem
    · subst heq
      exact instrFold_keeps rest _ r (instrStep_mem acc i2 r hr)
    · exact ih _ r ⟨i2, hmem, hr⟩

theorem liveInStage_keeps (lv : LivenessResult) (b : ir.BasicBlock) (pp : Nat)
    (m : List (Nat × Nat × Nat)) : keyKeeps m (liveInStage lv b pp m) := by
  unfold liveInStage
  cases alookup lv b.id with
  | none => exact keyKeeps_refl m
  | some l =>
    exact ientry_fold_keeps (fun _ se => (min se.1 pp, max se.2 pp))
      (fun _ => (pp, pp)) _ m

theorem termStage_keeps (t : ir.Terminator) (pp : Nat)
    (m : List (Nat × Nat × Nat)) : keyKeeps m (termStage t pp m) := by
  unfold termStage
  cases t with
  | branch cond tb eb => exact ientry_keeps m cond _ _
  | ret reg =>
    cases reg with
    | none => exact keyKeeps_refl m
    | some r => exact ientry_keeps m r _ _
  | jump t => exact keyKeeps_refl m
  | fallthrough t => exact keyKeeps_refl m
  | none => exact keyKeeps_refl m

theorem termStage_mem (t : ir.Terminator) (pp : Nat)
    (m : List (Nat × Nat × Nat)) (r : Nat) (h : readsVreg t r = true) :
    (alookup (termStage t pp m) r).isSome = true := by
  unfold termStage
  unfold readsVreg at h
  cases t with
  | branch cond tb eb =>
    have hc : cond = r := by simpa using h
    subst hc
    exact alookup_ientry_self m cond _ _
  | ret reg =>
    cases reg with
    | none => cases h
    | some r2 =>
      have hc : r2 = r := by simpa using h
      subst hc
      exact alookup_ientry_self m r2 _ _
  | jump t => cases h
  | fallthrough t => cases h
  | none => cases h

theorem liveOutStage_keeps (lv : LivenessResult) (b : ir.BasicBlock) (pp : Nat)
    (m : List (Nat × Nat × Nat)) : keyKeeps m (liveOutStage lv b pp m) := by
  unfold liveOutStage
  cases alookup lv b.id with
  | none => exact keyKeeps_refl m
  | some l =>
    exact ientry_fold_keeps (fun _ se => (se.1, max se.2 pp)) (fun _ => (pp, pp)) _ m

/-- Plain reduction equation for `buildBlock`. -/
theorem buildBlock_eq (lv : LivenessResult) (acc : List (Nat × Nat × Nat) × Nat)
    (b : ir.BasicBlock) :
    buildBlock lv acc b =
      (liveOutStage lv b
          (b.instructions.foldl instrStep (liveInStage lv b acc.2 acc.1, acc.2)).2
          (termStage b.terminator
            (b.instructions.foldl instrStep (liveInStage lv b acc.2 acc.1, acc.2)).2
            (b.instructions.foldl instrStep (liveInStage lv b acc.2 acc.1, acc.2)).1),
        (b.instructions.foldl instrStep (liveInStage lv b acc.2 acc.1, acc.2)).2) := rfl

theorem buildBlock_keeps (lv : LivenessResult)
    (acc : List (Nat × Nat × Nat) × Nat) (b : ir.BasicBlock) :
    keyKeeps acc.1 (buildBlock lv acc b).1 := by
  rw [buildBlock_eq]
  exact keyKeeps_trans (liveInStage_keeps lv b acc.2 acc.1)
    (keyKeeps_trans
      (instrFold_keeps b.instructions (liveInStage lv b acc.2 acc.1, acc.2))
      (keyKeeps_trans
        (termStage_keeps b.terminator
          (b.instructions.foldl instrStep (liveInStage lv b acc.2 acc.1, acc.2)).2
          (b.instructions.foldl instrStep (liveInStage lv b acc.2 acc.1, acc.2)).1)
        (liveOutStage_keeps lv b
          (b.instructions.foldl instrStep (liveInStage lv b acc.2 acc.1, acc.2)).2
          (termStage b.terminator
            (b.instructions.foldl instrStep (liveInStage lv b acc.2 acc.1, acc.2)).2
            (b.instructions.foldl instrStep
              (liveInStage lv b acc.2 acc.1, acc.2)).1))))

theorem buildBlock_mem (lv : LivenessResult)
    (acc : List (Nat × Nat × Nat) × Nat) (b : ir.BasicBlock) (r : Nat)
    (h : touchedInBlock b r = true) :
    (alookup (buildBlock lv acc b).1 r).isSome = true := by
  unfold touchedInBlock at h
  rw [Bool.or_eq_true] at h
  rw [buildBlock_eq]
  rcases h with hins | hterm
  · rw [List.any_eq_true] at hins
    obtain ⟨i, hi, hri⟩ := hins
    rw [Bool.or_eq_true] at hri
    have hri2 : i.destination = some r ∨ r ∈ i.args := by
      rcases hri with h1 | h2
      · left; exact beq_iff_eq.mp h1
      · right; simpa using h2
    have hmid := instrFold_mem b.instructions (liveInStage lv b acc.2 acc.1, acc.2)
      r ⟨i, hi, hri2⟩
    exact liveOutStage_keeps lv b
      (b.instructions.foldl instrStep (liveInStage lv b acc.2 acc.1, acc.2)).2
      (termStage b.terminator
        (b.instructions.foldl instrStep (liveInStage lv b acc.2 acc.1, acc.2)).2
        (b.instructions.foldl instrStep (liveInStage lv b acc.2 acc.1, acc.2)).1)
      r (termStage_keeps b.terminator
        (b.instructions.foldl instrStep (liveInStage lv b acc.2 acc.1, acc.2)).2
        (b.instructions.foldl instrStep (liveInStage lv b acc.2 acc.1, acc.2)).1
        r hmid)
  · exact liveOutStage_keeps lv b
      (b.instructions.foldl instrStep (liveInStage lv b acc.2 acc.1, acc.2)).2
      (termStage b.terminator
        (b.instructions.foldl instrStep (liveInStage lv b acc.2 acc.1, acc.2)).2
        (b.instructions.foldl instrStep (liveInStage lv b acc.2 acc.1, acc.2)).1)
      r (termStage_mem b.terminator
        (b.instructions.foldl instrStep (liveInStage lv b acc.2 acc.1, acc.2)).2
        (b.instructions.foldl instrStep (liveInStage lv b acc.2 acc.1, acc.2)).1
        r hterm)

theorem buildFold_keeps (lv : LivenessResult) :
    ∀ (l : List ir.BasicBlock) (acc : List (Nat × Nat × Nat) × Nat),
      keyKeeps acc.1 (l.foldl (buildBlock lv) acc).1 := by
  intro l
  induction l with
  | nil => intro acc; exact keyKeeps_refl acc.1
  | cons b rest ih =>
    intro acc
    rw [List.foldl_cons]
    exact keyKeeps_trans (buildBlock_keeps lv acc b) (ih (buildBlock lv acc b))

theorem buildFold_mem (lv : LivenessResult) :
    ∀ (l : List ir.BasicBlock) (acc : List (Nat × Nat × Nat) × Nat)
      (b : ir.BasicBlock) (r : Nat), b ∈ l → touchedInBlock b r = true →
      (alookup (l.foldl (buildBlock lv) acc).1 r).isSome = true := by
  intro l
  induction l with
  | nil => intro acc b r hb; cases hb
  | cons b0 rest ih =>
    intro acc b r hb ht
    rw [List.foldl_cons]
    rcases List.mem_cons.mp hb with heq | hmem
    · subst heq
      exact buildFold_keeps lv rest _ r (buildBlock_mem lv acc b r ht)
    · exact ih _ b r hmem ht

theorem build_intervals_mem (cfg : ir.CFG) (lv : LivenessResult) (r : Nat)
    (h : vregTouched cfg r = true) :
    ∃ iv ∈ build_intervals cfg lv, iv.vreg = r := by
  unfold vregTouched at h
  rw [List.any_eq_true] at h
  obtain ⟨b, hb, ht⟩ := h
  have hsome := buildFold_mem lv cfg.blocks ([], 0) b r hb ht
  rw [Option.isSome_iff_exists] at hsome
  obtain ⟨v, hv⟩ := hsome
  have hmem := alookup_mem _ r v hv
  refine ⟨⟨r, v.1, v.2⟩, ?_, rfl⟩
  unfold build_intervals
  rw [mem_stableSortBy]
  exact List.mem_map_of_mem (fun kv => LiveInterval.mk kv.1 kv.2.1 kv.2.2) hmem

/-- The invariant of the linear-scan state: every register string in the
allocation, the active list and the free pool is one of the seven
physical registers. -/
def scanInv (st : Allocation × List (LiveInterval × String) × List String) : Prop :=
  (∀ kv ∈ st.1, kv.2 ∈ REGISTERS) ∧ (∀ p ∈ st.2.1, p.2 ∈ REGISTERS) ∧
    (∀ s ∈ st.2.2, s ∈ REGISTERS)

theorem modulo_reg_mem (v : Nat) :
    REGISTERS.getD (v % REGISTERS.length) "" ∈ REGISTERS := by
  have hlt : v % REGISTERS.length < REGISTERS.length :=
    Nat.mod_lt v (by simp [REGISTERS])
  rw [List.getD_eq_getElem REGISTERS "" hlt]
  exact List.getElem_mem hlt

/-- Plain reduction equation for `scanStep`. -/
theorem scanStep_eq (allocation : Allocation)
    (active : List (LiveInterval × String)) (free : List String)
    (iv : LiveInterval) :
    scanStep (allocation, active, free) iv =
      match (free ++ (active.filter
          (fun p => p.1.iend < iv.istart)).map Prod.snd).getLast? with
      | some reg =>
          (ainsert allocation iv.vreg reg,
            stableSortBy (fun a b => a.1.iend ≤ b.1.iend)
              (active.filter (fun p => ¬ p.1.iend < iv.istart)) ++ [(iv, reg)],
            (free ++ (active.filter
              (fun p => p.1.iend < iv.istart)).map Prod.snd).dropLast)
      | Option.none =>
          match (stableSortBy (fun a b => a.1.iend ≤ b.1.iend)
              (active.filter (fun p => ¬ p.1.iend < iv.istart))).getLast? with
          | some (spill_candidate, spill_reg) =>
              if spill_candidate.iend > iv.iend then
                (ainsert allocation iv.vreg spill_reg,
                  (stableSortBy (fun a b => a.1.iend ≤ b.1.iend)
                    (active.filter (fun p => ¬ p.1.iend < iv.istart))).dropLast
                      ++ [(iv, spill_reg)],
                  free ++ (active.filter
                    (fun p => p.1.iend < iv.istart)).map Prod.snd)
              else
                (ainsert allocation iv.vreg
                    (REGISTERS.getD (iv.vreg % REGISTERS.length) ""),
                  stableSortBy (fun a b => a.1.iend ≤ b.1.iend)
                    (active.filter (fun p => ¬ p.1.iend < iv.istart)),
                  free ++ (active.filter
                    (fun p => p.1.iend < iv.istart)).map Prod.snd)
          | Option.none =>
              (ainsert allocation iv.vreg
                  (REGISTERS.getD (iv.vreg % REGISTERS.length) ""),
                stableSortBy (fun a b => a.1.iend ≤ b.1.iend)
                  (active.filter (fun p => ¬ p.1.iend < iv.istart)),
                free ++ (active.filter
                  (fun p => p.1.iend < iv.istart)).map Prod.snd) := rfl

theorem scanStep_set (st : Allocation × List (LiveInterval × String) × List String)
    (iv : LiveInterval) (hinv : scanInv st) :
    (∃ reg ∈ REGISTERS, (scanStep st iv).1 = ainsert st.1 iv.vreg reg) ∧
      scanInv (scanStep st iv) := by
  obtain ⟨allocation, active, free⟩ := st
  obtain ⟨hA, hAct, hF⟩ := hinv
  have hFree2 : ∀ s ∈ free ++ (active.filter
      (fun p => p.1.iend < iv.istart)).map Prod.snd, s ∈ REGISTERS := by
    intro s hs
    rcases List.mem_append.mp hs with h1 | h2
    · exact hF s h1
    · obtain ⟨p, hp, hps⟩ := List.mem_map.mp h2
      exact hps ▸ hAct p (List.mem_of_mem_filter hp)
  have hAct2 : ∀ p ∈ stableSortBy (fun a b => a.1.iend ≤ b.1.iend)
      (active.filter (fun p => ¬ p.1.iend < iv.istart)), p.2 ∈ REGISTERS := by
    intro p hp
    rw [mem_stableSortBy] at hp
    exact hAct p (List.mem_of_mem_filter hp)
  have hAnew : ∀ (reg : String), reg ∈ REGISTERS →
      ∀ kv ∈ ainsert allocation iv.vreg reg, kv.2 ∈ REGISTERS := by
    intro reg hreg kv hkv
    rcases keyproofs.mem_ainsert allocation iv.vreg reg kv hkv with heq | hmem
    · rw [heq]; exact hreg
    · exact hA kv hmem
  rw [scanStep_eq]
  cases hlast : (free ++ (active.filter
      (fun p => p.1.iend < iv.istart)).map Prod.snd).getLast? with
  | some reg =>
    dsimp only
    have hreg : reg ∈ REGISTERS := hFree2 reg (List.mem_of_mem_getLast? hlast)
    refine ⟨⟨reg, hreg, rfl⟩, hAnew reg hreg, ?_, ?_⟩
    · intro p hp
      rcases List.mem_append.mp hp with h1 | h2
      · exact hAct2 p h1
      · rw [List.mem_singleton] at h2
        rw [h2]; exact hreg
    · intro s hs
      exact hFree2 s (List.dropLast_subset _ hs)
  | none =>
    cases hlast2 : (stableSortBy (fun a b => a.1.iend ≤ b.1.iend)
        (active.filter (fun p => ¬ p.1.iend < iv.istart))).getLast? with
    | some pair =>
      obtain ⟨spill_candidate, spill_reg⟩ := pair
      dsimp only
      have hsreg : spill_reg ∈ REGISTERS :=
        hAct2 (spill_candidate, spill_reg) (List.mem_of_mem_getLast? hlast2)
      by_cases hcmp : spill_candidate.iend > iv.iend
      · rw [if_pos hcmp]
        refine ⟨⟨spill_reg, hsreg, rfl⟩, hAnew spill_reg hsreg, ?_, hFree2⟩
        intro p hp
        rcases List.mem_append.mp hp with h1 | h2
        · exact hAct2 p (List.dropLast_subset _ h1)
        · rw [List.mem_singleton] at h2
          rw [h2]; exact hsreg
      · rw [if_neg hcmp]
        exact ⟨⟨REGISTERS.getD (iv.vreg % REGISTERS.length) "",
          modulo_reg_mem iv.vreg, rfl⟩,
          hAnew _ (modulo_reg_mem iv.vreg), hAct2, hFree2⟩
    | none =>
      dsimp only
      exact ⟨⟨REGISTERS.getD (iv.vreg % REGISTERS.length) "",
        modulo_reg_mem iv.vreg, rfl⟩,
        hAnew _ (modulo_reg_mem iv.vreg), hAct2, hFree2⟩

theorem scanFold :
    ∀ (l : List LiveInterval)
      (st : Allocation × List (LiveInterval × String) × List String),
      scanInv st →
      scanInv (l.foldl scanStep st) ∧
        keyproofs.keyKeeps st.1 (l.foldl scanStep st).1 ∧
        ∀ iv ∈ l, (alookup (l.foldl scanStep st).1 iv.vreg).isSome = true := by
  intro l
  induction l with
  | nil =>
    intro st hinv
    exact ⟨hinv, keyproofs.keyKeeps_refl st.1, fun iv hiv => absurd hiv (List.not_mem_nil iv)⟩
  | cons iv rest ih =>
    intro st hinv
    rw [List.foldl_cons]
    obtain ⟨⟨reg, hreg, heq⟩, hinv2⟩ := scanStep_set st iv hinv
    obtain ⟨hinvF, hkeepF, hmemF⟩ := ih (scanStep st iv) hinv2
    refine ⟨hinvF, ?_, ?_⟩
    · refine keyproofs.keyKeeps_trans ?_ hkeepF
      rw [heq]
      exact keyproofs.keyKeeps_ainsert st.1 iv.vreg reg
    · intro iv2 hiv2
      rcases List.mem_cons.mp hiv2 with heq2 | hmem2
      · subst heq2
        refine hkeepF iv2.vreg ?_
        rw [heq, alookup_ainsert_self]
        rfl
      · exact hmemF iv2 hmem2

theorem linear_scan_props (intervals : List LiveInterval) :
    (∀ iv ∈ intervals, (alookup (linear_scan intervals) iv.vreg).isSome = true) ∧
      ∀ k v, alookup (linear_scan intervals) k = some v → v ∈ REGISTERS := by
  have hinv0 : scanInv ([], [], REGISTERS.reverse) := by
    refine ⟨fun kv hkv => absurd hkv (List.not_mem_nil kv),
      fun p hp => absurd hp (List.not_mem_nil p), ?_⟩
    intro s hs
    exact List.mem_reverse.mp hs
  obtain ⟨hinvF, _, hmemF⟩ := scanFold intervals ([], [], REGISTERS.reverse) hinv0
  constructor
  · exact hmemF
  · intro k v hv
    exact hinvF.1 (k, v) (keyproofs.alookup_mem _ k v hv)

end backendproofs2

namespace claims

/-- C8: any liveness result returned by the fixed-point analysis (the
fuelled loop returning `some` is exactly a terminating run of the Rust
`while changed` loop) satisfies the dataflow equations at every block:
`live_out(B)` is the union of the successors' `live_in`, and `live_in(B)`
is `use(B) ∪ (live_out(B) \ def(B))`, with `use`/`def` computed from the
block's instructions and terminator reads. -/
theorem C8_liveness_fixed_point (cfg : ir.CFG) (fuel : Nat)
    (res : backend.LivenessResult)
    (hnodup : (cfg.blocks.map ir.BasicBlock.id).Nodup)
    (h : backend.analyse fuel cfg = some res) :
    ∀ b ∈ cfg.blocks, ∃ L, alookup res b.id = some L ∧
      L.use_set = (backend.useDefOf b).1 ∧
      L.def_set = (backend.useDefOf b).2 ∧
      L.live_out = backend.succLiveUnion res b ∧
      L.live_in = (backend.useDefOf b).1
        ∪ (L.live_out \ (backend.useDefOf b).2) := by
  intro b hb
  have hinv := backendproofs.resInv_loop cfg hnodup fuel (backend.initResult cfg)
    res h (backendproofs.resInv_init cfg hnodup)
  have hstep := backendproofs.analyseLoop_stable cfg fuel (backend.initResult cfg)
    res h b hb
  obtain ⟨L, hL, hu, hd⟩ := hinv b hb
  obtain ⟨hin, hout⟩ := hstep L hL
  refine ⟨L, hL, hu, hd, hout, ?_⟩
  rw [hin, hu, hd, hout]

/-- Liveness witness input: block 0 defines register 0 and jumps to
block 1, which returns register 0. -/
def cfgW8 : ir.CFG :=
  ⟨[⟨0, [], [⟨.loadImm 7, some 0, []⟩], .jump 1⟩,
    ⟨1, [], [], .ret (some 0)⟩], 0⟩

def resW8 : backend.LivenessResult :=
  [(0, ⟨∅, {0}, ∅, {0}⟩), (1, ⟨{0}, ∅, {0}, ∅⟩)]

theorem C8_liveness_fixed_point_witness :
    backend.analyse 5 cfgW8 = some resW8 ∧
    ∀ b ∈ cfgW8.blocks, ∃ L, alookup resW8 b.id = some L ∧
      L.use_set = (backend.useDefOf b).1 ∧
      L.def_set = (backend.useDefOf b).2 ∧
      L.live_out = backend.succLiveUnion resW8 b ∧
      L.live_in = (backend.useDefOf b).1
        ∪ (L.live_out \ (backend.useDefOf b).2) :=
  ⟨by decide, C8_liveness_fixed_point cfgW8 5 resW8 (by decide) (by decide)⟩


/-- C7: for every CFG, register allocation (through a terminating run of
the liveness fixed point) produces a total mapping — every virtual
register that appears as an instruction destination or argument, as a
branch condition, or as a returned register is a key of the resulting
allocation, bound to one of the seven physical registers t0..t6. -/
theorem C7_allocation_total (cfg : ir.CFG) (fuel : Nat)
    (alloc : backend.Allocation) (r : Nat)
    (h : backend.allocate fuel cfg = some alloc)
    (ht : backend.vregTouched cfg r = true) :
    ∃ reg, alookup alloc r = some reg ∧ reg ∈ backend.REGISTERS := by
  unfold backend.allocate at h
  cases ha : backend.analyse fuel cfg with
  | none => rw [ha] at h; cases h
  | some lv =>
    rw [ha] at h
    simp only [Option.map_some'] at h
    cases h
    obtain ⟨iv, hiv, hvr⟩ := backendproofs2.build_intervals_mem cfg lv r ht
    obtain ⟨hmem, hvals⟩ :=
      backendproofs2.linear_scan_props (backend.build_intervals cfg lv)
    have hs := hmem iv hiv
    rw [hvr] at hs
    rw [Option.isSome_iff_exists] at hs
    obtain ⟨reg, hreg⟩ := hs
    exact ⟨reg, hreg, hvals r reg hreg⟩

/-- Allocation witness input: one block defining register 0 and
returning it. -/
def cfgW7 : ir.CFG :=
  ⟨[⟨0, [], [⟨.loadImm 7, some 0, []⟩], .ret (some 0)⟩], 0⟩

def allocW7 : backend.Allocation := [(0, "t0")]

theorem C7_allocation_total_witness :
    ∃ reg, alookup allocW7 0 = some reg ∧ reg ∈ backend.REGISTERS :=
  C7_allocation_total cfgW7 1 allocW7 0 (by decide) (by decide)

end claims

end Peri
